import Mathlib

/-!
Shallow embedding of the Minesweeper engine
(`src/hud_controller/minesweeper.py`, `src/hud_controller/server.py`,
`reward_demo.py`) and verification of its specification claims.

Python `list`-of-`list` boards are modelled as total functions
`Int → Int → _` read and written only at in-bounds coordinates (every
access in the source is guarded by a bounds check); in-place mutation is
modelled by functional update.  Python `int` is `Int`; Python `float`
arithmetic in the reward computation is modelled by exact rationals `ℚ`.
The `random.randint` stream in mine placement is modelled by an explicit
list of picks consumed by the rejection loop.
-/

namespace Minesweeper

/-- Grid of adjacency numbers: `-1` for a mine, otherwise a count. -/
abbrev Grid := Int → Int → Int

/-- Display board: what the player sees (`"X"`, `"F"`, `"-"`, `"*"`, digits). -/
abbrev Display := Int → Int → String

/-- Functional update of a two-argument function at one point
(models `board[r][c] = v`). -/
def upd2 {α : Type} (f : Int → Int → α) (r c : Int) (v : α) :
    Int → Int → α :=
  fun x y => if x = r ∧ y = c then v else f x y

/-- The Python bounds test `0 <= row < rows and 0 <= col < cols`. -/
def inB (rows cols r c : Int) : Prop :=
  0 ≤ r ∧ r < rows ∧ 0 ≤ c ∧ c < cols

instance (rows cols r c : Int) : Decidable (inB rows cols r c) := by
  unfold inB; infer_instance

/-- The full game state of `MinesweeperGame`. -/
structure Game where
  rows : Int
  cols : Int
  numMines : Int
  grid : Grid
  display : Display
  gameOver : Bool
  won : Bool
  minesFlagged : Int

/-- Bounds test relative to a game. -/
def Game.inBounds (g : Game) (r c : Int) : Prop :=
  inB g.rows g.cols r c

instance (g : Game) (r c : Int) : Decidable (g.inBounds r c) := by
  unfold Game.inBounds; infer_instance

/-- Row-major list of all in-bounds coordinates, as produced by
`for r in range(rows): for c in range(cols)`. -/
def coordList (rows cols : Int) : List (Int × Int) :=
  (List.range rows.toNat).flatMap
    (fun r => (List.range cols.toNat).map
      (fun c => ((Nat.cast r : Int), (Nat.cast c : Int))))

/-- The 8 neighbor offsets, in the order the Python double loop
`for dr in [-1,0,1]: for dc in [-1,0,1]` visits them (skipping `(0,0)`). -/
def offsets : List (Int × Int) :=
  [(-1,-1), (-1,0), (-1,1), (0,-1), (0,1), (1,-1), (1,0), (1,1)]

/-- `_calculate_mine_indicators`' inner double loop: count adjacent mines
of cell `(r, c)` against the current grid. -/
def countAdj (rows cols : Int) (grid : Grid) (r c : Int) : Int :=
  offsets.foldl
    (fun acc o =>
      if inB rows cols (r + o.1) (c + o.2) ∧ grid (r + o.1) (c + o.2) = -1
      then acc + 1 else acc) 0

/-- `_calculate_mine_indicators`: for every cell in row-major order, if it is
not a mine, overwrite it in place with its adjacent-mine count. -/
def calcIndicators (rows cols : Int) (grid : Grid) : Grid :=
  (coordList rows cols).foldl
    (fun gAcc p =>
      if gAcc p.1 p.2 ≠ -1
      then upd2 gAcc p.1 p.2 (countAdj rows cols gAcc p.1 p.2)
      else gAcc) grid

/-- One iteration of `_calculate_mine_indicators`' cell loop. -/
def indStep (rows cols : Int) (gAcc : Grid) (p : Int × Int) : Grid :=
  if gAcc p.1 p.2 ≠ -1
  then upd2 gAcc p.1 p.2 (countAdj rows cols gAcc p.1 p.2)
  else gAcc

/-- `_assign_bombs`: the rejection-sampling loop, consuming an explicit
list of random picks.  `none` models running out of the modelled random
stream (the Python loop would keep drawing). -/
def assignBombs (target : Int) : List (Int × Int) → Int → Grid → Option Grid
  | picks, placed, grid =>
    if placed = target then some grid
    else
      match picks with
      | [] => none
      | p :: rest =>
          if grid p.1 p.2 ≠ -1
          then assignBombs target rest (placed + 1) (upd2 grid p.1 p.2 (-1))
          else assignBombs target rest placed grid

/-- Outcome of `setup_game`: the `ValueError` raise, exhaustion of the
modelled random stream, or a ready game. -/
inductive SetupOutcome where
  | invalidConfig : SetupOutcome
  | ranOut : SetupOutcome
  | ok : Game → SetupOutcome

/-- `setup_game(rows, cols, num_mines)` with the random stream made
explicit. -/
def setupGame (rows cols numMines : Int) (picks : List (Int × Int)) :
    SetupOutcome :=
  if numMines ≥ rows * cols then .invalidConfig
  else
    match assignBombs numMines picks 0 (fun _ _ => 0) with
    | none => .ranOut
    | some grid1 =>
        .ok { rows := rows, cols := cols, numMines := numMines,
              grid := calcIndicators rows cols grid1,
              display := fun _ _ => "X",
              gameOver := false, won := false, minesFlagged := 0 }

/-- The string a cell is set to when uncovered: `'-'` for a zero cell,
`str(n)` for a numbered cell. -/
def revealChar (v : Int) : String :=
  if v = 0 then "-" else toString v

/-- `_uncover_squares`: the recursive flood fill, acting on the display
board (the only field the Python method mutates).  The `fuel` argument
bounds the recursion depth; `reveal` passes a provably sufficient value. -/
def uncoverD (g : Game) : Nat → Display → Int → Int → Display
  | 0, d, _, _ => d
  | fuel + 1, d, row, col =>
    if ¬ inB g.rows g.cols row col ∨ d row col ≠ "X" then d
    else if d row col = "F" then d
    else if 0 < g.grid row col then upd2 d row col (toString (g.grid row col))
    else if g.grid row col = 0 then
      offsets.foldl
        (fun dAcc o =>
          if inB g.rows g.cols (row + o.1) (col + o.2) ∧
             0 ≤ g.grid (row + o.1) (col + o.2)
          then uncoverD g fuel dAcc (row + o.1) (col + o.2)
          else dAcc)
        (upd2 d row col "-")
    else d

/-- One iteration of the flood fill's neighbor loop: recurse into the
neighbor at offset `o` when it is in bounds and not a mine. -/
def floodStep (g : Game) (fuel : Nat) (row col : Int)
    (dAcc : Display) (o : Int × Int) : Display :=
  if inB g.rows g.cols (row + o.1) (col + o.2) ∧
     0 ≤ g.grid (row + o.1) (col + o.2)
  then uncoverD g fuel dAcc (row + o.1) (col + o.2)
  else dAcc

/-- Number of `"X"` cells on the display (used only to size the flood-fill
fuel). -/
def hiddenN (rows cols : Int) (d : Display) : Nat :=
  (coordList rows cols).countP (fun p => d p.1 p.2 = "X")

/-- `_check_win`'s count: cells that are neither `'X'` nor `'F'` nor `'*'`. -/
def uncoveredCount (g : Game) : Nat :=
  (coordList g.rows g.cols).countP
    (fun p => ¬ (g.display p.1 p.2 = "X" ∨ g.display p.1 p.2 = "F" ∨
                 g.display p.1 p.2 = "*"))

/-- `_check_win`: all non-mine cells uncovered. -/
def checkWin (g : Game) : Prop :=
  g.rows * g.cols - g.numMines = (uncoveredCount g : Int)

instance (g : Game) : Decidable (checkWin g) := by
  unfold checkWin; infer_instance

/-- Status tag of a `reveal` result dictionary. -/
inductive RStatus where
  | gameOverErr | invalid | mineHit | wonS | revealed
  deriving DecidableEq

/-- Result of `reveal`: the status tag, the updated game, and the
`game_over` / `won` fields of the returned dictionary (absent, `none`,
in the error branches). -/
structure RevealResult where
  status : RStatus
  game : Game
  retGameOver : Option Bool
  retWon : Option Bool

/-- The game state right after `_uncover_squares` has run on a safe cell
(the flood fill's fuel is one more than the number of hidden cells, which
bounds the recursion depth of the Python original). -/
def revealFlood (g : Game) (row col : Int) : Game :=
  { g with display :=
      (uncoverD g (hiddenN g.rows g.cols g.display + 1) g.display row col) }

/-- `reveal(row, col)`. -/
def reveal (g : Game) (row col : Int) : RevealResult :=
  if g.gameOver then ⟨.gameOverErr, g, none, none⟩
  else if ¬ g.inBounds row col then ⟨.invalid, g, none, none⟩
  else if g.display row col = "F" then ⟨.invalid, g, none, none⟩
  else if g.display row col ≠ "X" then ⟨.invalid, g, none, none⟩
  else if g.grid row col = -1 then
    ⟨.mineHit,
     { g with display := upd2 g.display row col "*", gameOver := true },
     some true, some false⟩
  else if checkWin (revealFlood g row col) then
    ⟨.wonS,
     { (revealFlood g row col) with gameOver := true, won := true },
     some true, some true⟩
  else
    ⟨.revealed, revealFlood g row col, some false, some false⟩

/-- Status tag of a `flag` result dictionary. -/
inductive FStatus where
  | gameOverErr | invalid | flagged
  deriving DecidableEq

/-- Result of `flag`: status tag and updated game (the returned
`mines_flagged` field equals `game.minesFlagged`). -/
structure FlagResult where
  status : FStatus
  game : Game

/-- `flag(row, col)`. -/
def flag (g : Game) (row col : Int) : FlagResult :=
  if g.gameOver then ⟨.gameOverErr, g⟩
  else if ¬ g.inBounds row col then ⟨.invalid, g⟩
  else if ¬ (g.display row col = "X" ∨ g.display row col = "F") then
    ⟨.invalid, g⟩
  else if g.display row col = "X" then
    ⟨.flagged,
     { g with display := upd2 g.display row col "F",
              minesFlagged := g.minesFlagged + 1 }⟩
  else
    ⟨.flagged,
     { g with display := upd2 g.display row col "X",
              minesFlagged := g.minesFlagged - 1 }⟩

/-- `get_game_state`'s `cells_revealed`: cells not in `['X', 'F']`. -/
def cellsRevealed (g : Game) : Nat :=
  (coordList g.rows g.cols).countP
    (fun p => ¬ (g.display p.1 p.2 = "X" ∨ g.display p.1 p.2 = "F"))

/-- The reward computed by the `evaluate` tool in `server.py`:
`1.0` if the game is won, otherwise `0.0`. -/
def evaluateReward (g : Game) : ℚ :=
  if g.won then 1 else 0

/-- `expected_random_cells` as computed (and displayed) by `evaluate`:
`(total_cells - num_mines) / (num_mines + 1)`. -/
def expectedRandomCells (totalCells numMines : ℚ) : ℚ :=
  (totalCells - numMines) / (numMines + 1)

/-- `calculate_reward` from `reward_demo.py` (first component of the
returned pair; the second is `expected_random_cells`). -/
def calculate_reward (cells_revealed total_cells num_mines : ℚ)
    (won : Bool) : ℚ :=
  let expected := (total_cells - num_mines) / (num_mines + 1)
  if won then 1
  else if cells_revealed ≤ expected then 0
  else
    let max_possible := total_cells - num_mines
    (1 / 2) * ((cells_revealed - expected) / (max_possible - expected))

/-- Python `f"{n:2}"`: right-align in width 2, space filled. -/
def pad2 (n : Int) : String :=
  let s := toString n
  if s.length < 2 then " " ++ s else s

/-- `_get_board_display`: header of width-2 column indices, then each row
prefixed by its width-2 index, one display string per cell. -/
def boardDisplay (g : Game) : String :=
  let header := "   " ++ String.intercalate " "
    (((List.range g.cols.toNat).map (fun c => pad2 (c : Int))))
  let rowLine := fun (r : Int) =>
    (List.range g.cols.toNat).foldl
      (fun acc c => acc ++ " " ++ g.display r (c : Int)) (pad2 r ++ " ")
  String.intercalate "\n"
    (header :: (List.range g.rows.toNat).map (fun r => rowLine (r : Int)))

/-- Two cells are 8-adjacent (the offset between them is one of the eight
neighbor offsets). -/
def adj (p q : Int × Int) : Prop :=
  (q.1 - p.1, q.2 - p.2) ∈ offsets

instance (p q : Int × Int) : Decidable (adj p q) := by
  unfold adj; infer_instance

/-- Cascade reachability on a display `d`: `(x, y)` can be reached from the
start by a chain of steps, each leaving an in-bounds, still-hidden (`"X"`)
zero-count cell for one of its 8 neighbors. -/
inductive Reach (g : Game) (d : Display) (s : Int × Int) : Int × Int → Prop
  | refl : Reach g d s s
  | step {p q : Int × Int} : Reach g d s p → inB g.rows g.cols p.1 p.2 →
      d p.1 p.2 = "X" → g.grid p.1 p.2 = 0 → adj p q → Reach g d s q

/-- The set of cells a cascade starting at `s` turns over: reachable,
in-bounds, hidden, non-mine. -/
def CascadeHits (g : Game) (d : Display) (s : Int × Int) (p : Int × Int) :
    Prop :=
  Reach g d s p ∧ inB g.rows g.cols p.1 p.2 ∧ d p.1 p.2 = "X" ∧
    0 ≤ g.grid p.1 p.2

/-- The zero component actually uncovered: reachable hidden zero cells. -/
def ZPart (g : Game) (d : Display) (s : Int × Int) (p : Int × Int) : Prop :=
  Reach g d s p ∧ inB g.rows g.cols p.1 p.2 ∧ d p.1 p.2 = "X" ∧
    g.grid p.1 p.2 = 0

/-- The numbered border of the uncovered zero component: hidden numbered
cells adjacent to some cell of `ZPart`. -/
def NumBorder (g : Game) (d : Display) (s : Int × Int) (q : Int × Int) :
    Prop :=
  inB g.rows g.cols q.1 q.2 ∧ d q.1 q.2 = "X" ∧ 0 < g.grid q.1 q.2 ∧
    ∃ p, ZPart g d s p ∧ adj p q

/-- Reachability through zero-count cells ignoring their visibility: the
"connected component of zero-count cells" of claim C2 read literally
(flagged cells may appear inside a chain). -/
inductive ReachZ (g : Game) (s : Int × Int) : Int × Int → Prop
  | refl : ReachZ g s s
  | step {p q : Int × Int} : ReachZ g s p → inB g.rows g.cols p.1 p.2 →
      g.grid p.1 p.2 = 0 → adj p q → ReachZ g s q

/-- Grid sanity: every in-bounds cell holds `-1` or a count in `[0, 8]`.
Established by `setupGame` (see C6) and preserved by all operations, which
never write to `grid`. -/
def gridOK (g : Game) : Prop :=
  ∀ x y, inB g.rows g.cols x y → -1 ≤ g.grid x y ∧ g.grid x y ≤ 8

/-- The display/grid consistency invariant of claim C9: every in-bounds
display cell is one of the five glyph kinds, and revealed glyphs match the
grid value underneath. -/
def displayInv (g : Game) : Prop :=
  ∀ x y, inB g.rows g.cols x y →
    g.display x y = "X" ∨ g.display x y = "F" ∨
    (g.display x y = "-" ∧ g.grid x y = 0) ∨
    (g.display x y = "*" ∧ g.grid x y = -1) ∨
    (∃ dv : Int, 1 ≤ dv ∧ dv ≤ 8 ∧ g.grid x y = dv ∧
      g.display x y = toString dv)

/-- How a display can evolve during one flood fill: every cell is either
untouched, or goes from `"X"` to its reveal glyph. -/
def Evol (g : Game) (d d' : Display) : Prop :=
  ∀ x y, d' x y = d x y ∨
    (d x y = "X" ∧ inB g.rows g.cols x y ∧ 0 ≤ g.grid x y ∧
     d' x y = revealChar (g.grid x y))

/-- Number of in-bounds mine cells. -/
def mineCount (g : Game) : Nat :=
  (coordList g.rows g.cols).countP (fun p => g.grid p.1 p.2 = -1)

/-- Specification-side adjacent-mine count: the number of board cells that
are 8-adjacent to `(x, y)` and hold a mine. -/
def adjMines (g : Game) (x y : Int) : Nat :=
  (coordList g.rows g.cols).countP
    (fun q => adj (x, y) q ∧ g.grid q.1 q.2 = -1)

/-- A player action: reveal or flag. -/
inductive Op where
  | rev (row col : Int) : Op
  | flg (row col : Int) : Op

/-- Apply one action to the game state. -/
def applyOp (g : Game) : Op → Game
  | .rev row col => (reveal g row col).game
  | .flg row col => (flag g row col).game

/-- Apply a sequence of actions. -/
def runOps (g : Game) (ops : List Op) : Game :=
  ops.foldl applyOp g

/-- Zero-padding to width 2, as claim C7 describes the index headers
(`f"{c:02}"`-style rather than the source's space padding). -/
def padZ2 (n : Int) : String :=
  let s := toString n
  if s.length < 2 then "0" ++ s else s

/-- The board rendering claim C7 describes, read literally: identical
layout but with zero-padded row and column indices. -/
def claimRender (g : Game) : String :=
  let header := "   " ++ String.intercalate " "
    (((List.range g.cols.toNat).map (fun c => padZ2 (c : Int))))
  let rowLine := fun (r : Int) =>
    (List.range g.cols.toNat).foldl
      (fun acc c => acc ++ " " ++ g.display r (c : Int)) (padZ2 r ++ " ")
  String.intercalate "\n"
    (header :: (List.range g.rows.toNat).map (fun r => rowLine (r : Int)))

/-- Placeholder game (used only to totalize extraction from
`SetupOutcome`). -/
def junkGame : Game :=
  { rows := 0, cols := 0, numMines := 0, grid := fun _ _ => 0,
    display := fun _ _ => "X", gameOver := false, won := false,
    minesFlagged := 0 }

/-- A 1×7 board whose first five cells are zero-count, with a flag on the
middle zero cell `(0,2)`: the flag is a cut vertex of the zero component. -/
def cutFlagGame : Game :=
  { rows := 1, cols := 7, numMines := 1,
    grid := fun r c =>
      if r = 0 ∧ c = 5 then 1 else if r = 0 ∧ c = 6 then -1 else 0,
    display := fun r c => if r = 0 ∧ c = 2 then "F" else "X",
    gameOver := false, won := false, minesFlagged := 1 }

/-- A 1×2 board, mine at `(0,1)`, nothing revealed. -/
def tinyGame : Game :=
  { rows := 1, cols := 2, numMines := 1,
    grid := fun r c => if r = 0 ∧ c = 1 then -1 else 1,
    display := fun _ _ => "X",
    gameOver := false, won := false, minesFlagged := 0 }

/-- A 1×3 board, mine at `(0,2)`, cell `(0,0)` zero-count. -/
def zeroStartGame : Game :=
  { rows := 1, cols := 3, numMines := 1,
    grid := fun r c =>
      if r = 0 ∧ c = 2 then -1 else if r = 0 ∧ c = 1 then 1 else 0,
    display := fun _ _ => "X",
    gameOver := false, won := false, minesFlagged := 0 }

/-- A finished game (used to exercise the terminal-state behavior). -/
def doneGame : Game :=
  { tinyGame with gameOver := true }

/-- A 6×6 in-progress game with 6 mines and 15 cells revealed (the reward
round-trip example of the spec). -/
def midGame : Game :=
  { rows := 6, cols := 6, numMines := 6,
    grid := fun _ _ => 0,
    display := fun r c => if r = 0 ∨ r = 1 ∨ (r = 2 ∧ c < 3) then "-" else "X",
    gameOver := false, won := false, minesFlagged := 0 }

/-- The game produced by `setup_game(3, 3, num_mines=0)` (which the source
accepts). -/
def zeroMinesGame : Game :=
  match setupGame 3 3 0 [] with
  | .ok g => g
  | _ => junkGame

/-- The game produced by `setup_game(1, 2, num_mines=1)` with the random
stream picking `(0, 1)`. -/
def setup12Game : Game :=
  match setupGame 1 2 1 [(0, 1)] with
  | .ok g => g
  | _ => junkGame

/-- The glyphs of a Revealed cell. -/
def revealedGlyphs : List String :=
  ["-", "1", "2", "3", "4", "5", "6", "7", "8"]

/-- Number of Revealed cells: cells showing `'-'` or a digit. -/
def revealedCount (g : Game) : Nat :=
  (coordList g.rows g.cols).countP
    (fun p => g.display p.1 p.2 ∈ revealedGlyphs)

/-- Invariant carried through the flood fill's neighbor loop at a zero
cell `(row, col)` (used to prove `uncoverD_closed`): the display has only
evolved, newly revealed `"-"` cells already have their neighbors settled,
and every processed neighbor offset of `(row, col)` is settled. -/
def Qclosed (g : Game) (d : Display) (row col : Int)
    (dAcc : Display) (rem : List (Int × Int)) : Prop :=
  Evol g (upd2 d row col "-") dAcc ∧
  (∀ u v, upd2 d row col "-" u v = "X" → dAcc u v = "-" →
    ∀ o ∈ offsets, inB g.rows g.cols (u + o.1) (v + o.2) →
      0 ≤ g.grid (u + o.1) (v + o.2) →
      (dAcc (u + o.1) (v + o.2) = revealChar (g.grid (u + o.1) (v + o.2)) ∨
        upd2 d row col "-" (u + o.1) (v + o.2) ≠ "X")) ∧
  (∀ o ∈ offsets, o ∉ rem →
    inB g.rows g.cols (row + o.1) (col + o.2) →
    0 ≤ g.grid (row + o.1) (col + o.2) →
    (dAcc (row + o.1) (col + o.2)
        = revealChar (g.grid (row + o.1) (col + o.2)) ∨
      upd2 d row col "-" (row + o.1) (col + o.2) ≠ "X"))

/-- Invariant carried through `_calculate_mine_indicators`' cell loop
(used to prove `calcIndicators_spec`): mine positions never move, cells
still to be visited are untouched, and visited cells hold their final
value. -/
def Qcalc (rows cols : Int) (grid gAcc : Grid)
    (rem : List (Int × Int)) : Prop :=
  rem.Sublist (coordList rows cols) ∧
  (∀ u v, gAcc u v = -1 ↔ grid u v = -1) ∧
  (∀ p ∈ rem, gAcc p.1 p.2 = grid p.1 p.2) ∧
  (∀ p, p ∈ coordList rows cols → p ∉ rem →
    gAcc p.1 p.2 = if grid p.1 p.2 = -1 then -1
      else countAdj rows cols grid p.1 p.2)

/-! ### Generic list helpers -/

theorem foldl_inv {α β : Type _} (f : β → α → β) (P : β → Prop)
    (l : List α) (b : β) (hb : P b)
    (hstep : ∀ b' a, a ∈ l → P b' → P (f b' a)) : P (l.foldl f b) := by
  induction l generalizing b with
  | nil => exact hb
  | cons a t ih =>
    exact ih (f b a) (hstep b a (List.mem_cons_self a t) hb)
      (fun b' x hx => hstep b' x (List.mem_cons_of_mem a hx))

theorem foldl_suffix_inv {α β : Type _} (f : β → α → β) (Q : β → List α → Prop)
    (hstep : ∀ b a t, Q b (a :: t) → Q (f b a) t) :
    ∀ (l : List α) (b : β), Q b l → Q (l.foldl f b) [] := by
  intro l
  induction l with
  | nil => exact fun b hb => hb
  | cons a t ih => exact fun b hb => ih (f b a) (hstep b a t hb)

theorem countP_lt_of_mem {α : Type _} {l : List α} {p q : α → Bool}
    (hsub : ∀ a ∈ l, q a = true → p a = true) {a₀ : α} (ha : a₀ ∈ l)
    (hp : p a₀ = true) (hq : q a₀ = false) :
    l.countP q < l.countP p := by
  induction l with
  | nil => simp at ha
  | cons b t ih =>
    rw [List.countP_cons, List.countP_cons]
    rcases List.mem_cons.mp ha with h | h
    · subst h
      rw [hp, hq]
      have hle := List.countP_mono_left
        (l := t) (p := q) (q := p)
        (fun x hx hqx => hsub x (List.mem_cons_of_mem a₀ hx) hqx)
      simp
      omega
    · have hlt := ih (fun a hat => hsub a (List.mem_cons_of_mem b hat)) h
      have hble : (if q b = true then 1 else 0) ≤
          (if p b = true then 1 else 0) := by
        by_cases hqb : q b = true
        · rw [hsub b (List.mem_cons_self b t) hqb, hqb]
        · simp [hqb]
      omega

theorem countP_point_update {α : Type _} {l : List α} (hnd : l.Nodup)
    {P Q : α → Bool} {a₀ : α} (ha : a₀ ∈ l)
    (hsame : ∀ a ∈ l, a ≠ a₀ → P a = Q a)
    (hP : P a₀ = false) (hQ : Q a₀ = true) :
    l.countP Q = l.countP P + 1 := by
  induction l with
  | nil => simp at ha
  | cons b t ih =>
    rw [List.countP_cons, List.countP_cons]
    rcases List.mem_cons.mp ha with h | h
    · subst h
      have hnot : a₀ ∉ t := (List.nodup_cons.mp hnd).1
      have ht : t.countP P = t.countP Q :=
        List.countP_congr (fun a hat => by
          rw [hsame a (List.mem_cons_of_mem a₀ hat)
            (fun e => hnot (e ▸ hat))])
      rw [hP, hQ, ht]
      simp
    · have hb : b ≠ a₀ := fun e => (List.nodup_cons.mp hnd).1 (e ▸ h)
      have := ih (List.nodup_cons.mp hnd).2 h
        (fun a hat hne => hsame a (List.mem_cons_of_mem b hat) hne)
      rw [hsame b (List.mem_cons_self b t) hb, this]
      omega

theorem count_foldl_eq_countP {α : Type _} (P : α → Prop) [DecidablePred P] :
    ∀ (l : List α) (acc : Int),
      l.foldl (fun a x => if P x then a + 1 else a) acc
        = acc + (l.countP (fun x => decide (P x)) : Int) := by
  intro l
  induction l with
  | nil => intro acc; simp
  | cons b t ih =>
    intro acc
    rw [List.foldl_cons, List.countP_cons, ih]
    by_cases hb : P b
    · rw [if_pos hb, decide_eq_true hb]
      simp
      ring
    · rw [if_neg hb, decide_eq_false hb]
      simp

theorem foldl_append_shift :
    ∀ (l : List String) (x y : String),
      l.foldl (fun r s => r ++ s) (x ++ y)
        = x ++ l.foldl (fun r s => r ++ s) y := by
  intro l
  induction l with
  | nil => intro x y; rfl
  | cons a t ih =>
    intro x y
    rw [List.foldl_cons, List.foldl_cons, String.append_assoc]
    exact ih x (y ++ a)

theorem join_cons (a : String) (l : List String) :
    String.join (a :: l) = a ++ String.join l := by
  show l.foldl (fun r s => r ++ s) ("" ++ a) = a ++ String.join l
  rw [String.empty_append]
  have h := foldl_append_shift l a ""
  rw [String.append_empty] at h
  exact h

theorem foldl_append_eq_join {α : Type _} (f : α → String) :
    ∀ (l : List α) (s : String),
      l.foldl (fun acc x => acc ++ f x) s = s ++ String.join (l.map f) := by
  intro l
  induction l with
  | nil => intro s; rw [List.foldl_nil, List.map_nil]; simp [String.join]
  | cons b t ih =>
    intro s
    rw [List.foldl_cons, ih, List.map_cons, join_cons, String.append_assoc]

/-! ### Coordinate-list facts -/

theorem mem_coordList {rows cols : Int} {p : Int × Int} :
    p ∈ coordList rows cols ↔ inB rows cols p.1 p.2 := by
  obtain ⟨r, c⟩ := p
  constructor
  · intro hmem
    rw [coordList, List.mem_flatMap] at hmem
    obtain ⟨a, ha, hmem2⟩ := hmem
    rw [List.mem_map] at hmem2
    obtain ⟨b, hb, heq⟩ := hmem2
    rw [List.mem_range] at ha hb
    have h1 : ((a : Int)) = r := congrArg Prod.fst heq
    have h2 : ((b : Int)) = c := congrArg Prod.snd heq
    refine ⟨?_, ?_, ?_, ?_⟩ <;> omega
  · intro h
    obtain ⟨h0, h1, h2, h3⟩ := h
    rw [coordList, List.mem_flatMap]
    refine ⟨r.toNat, ?_, ?_⟩
    · rw [List.mem_range]; omega
    · rw [List.mem_map]
      refine ⟨c.toNat, by rw [List.mem_range]; omega, ?_⟩
      rw [Prod.mk.injEq]
      constructor <;> omega

theorem nodup_coordList (rows cols : Int) : (coordList rows cols).Nodup := by
  rw [coordList, List.nodup_flatMap]
  constructor
  · intro x _
    exact ((List.nodup_range _).map
      (fun c₁ c₂ h => by
        have h2 : ((c₁ : Int)) = (c₂ : Int) := congrArg Prod.snd h
        omega))
  · refine (List.pairwise_lt_range _).imp ?_
    intro a b hab
    intro x hxa hxb
    rw [List.mem_map] at hxa hxb
    obtain ⟨c₁, _, rfl⟩ := hxa
    obtain ⟨c₂, _, h⟩ := hxb
    have h2 : ((b : Int)) = (a : Int) := congrArg Prod.fst h
    omega

/-! ### Pointwise update and neighbor-offset facts -/

theorem upd2_same {α : Type} (f : Int → Int → α) (r c : Int) (v : α) :
    upd2 f r c v r c = v := by
  unfold upd2
  rw [if_pos ⟨rfl, rfl⟩]

theorem upd2_other {α : Type} (f : Int → Int → α) (r c : Int) (v : α)
    {x y : Int} (h : ¬ (x = r ∧ y = c)) : upd2 f r c v x y = f x y := by
  unfold upd2
  rw [if_neg h]

theorem offsets_ne_zero : ∀ o ∈ offsets, ¬ (o.1 = 0 ∧ o.2 = 0) := by decide

theorem adj_offset {row col : Int} {o : Int × Int} (ho : o ∈ offsets) :
    adj (row, col) (row + o.1, col + o.2) := by
  show (row + o.1 - row, col + o.2 - col) ∈ offsets
  have h : (row + o.1 - row, col + o.2 - col) = o := by
    obtain ⟨o1, o2⟩ := o
    rw [Prod.mk.injEq]
    constructor <;> ring
  rw [h]
  exact ho

theorem adj_dest {p q : Int × Int} (h : adj p q) :
    ∃ o ∈ offsets, q = (p.1 + o.1, p.2 + o.2) := by
  refine ⟨(q.1 - p.1, q.2 - p.2), h, ?_⟩
  rw [Prod.ext_iff]
  constructor <;> simp

theorem nbr_ne_self {row col : Int} {o : Int × Int} (ho : o ∈ offsets) :
    ¬ (row + o.1 = row ∧ col + o.2 = col) := by
  intro ⟨h1, h2⟩
  exact offsets_ne_zero o ho ⟨by omega, by omega⟩

/-! ### Reveal-glyph facts -/

theorem revealChar_zero : revealChar 0 = "-" := rfl

theorem revealChar_pos {v : Int} (h : 0 < v) :
    revealChar v = toString v := by
  unfold revealChar
  rw [if_neg (by omega)]

theorem toString_small_ne {v : Int} (h1 : 0 < v) (h8 : v ≤ 8) :
    toString v ≠ "X" ∧ toString v ≠ "-" ∧ toString v ≠ "F" ∧
      toString v ≠ "*" := by
  have hv : v = 1 ∨ v = 2 ∨ v = 3 ∨ v = 4 ∨ v = 5 ∨ v = 6 ∨ v = 7 ∨ v = 8 :=
    by omega
  rcases hv with rfl | rfl | rfl | rfl | rfl | rfl | rfl | rfl <;>
    exact ⟨by decide, by decide, by decide, by decide⟩

theorem revealChar_ne_X {v : Int} (h0 : 0 ≤ v) (h8 : v ≤ 8) :
    revealChar v ≠ "X" := by
  by_cases hz : v = 0
  · subst hz; decide
  · rw [revealChar_pos (by omega)]
    exact (toString_small_ne (by omega) h8).1

/-! ### Evolution of the display during a flood fill -/

theorem evol_refl (g : Game) (d : Display) : Evol g d d :=
  fun _ _ => Or.inl rfl

theorem evol_trans {g : Game} {d₁ d₂ d₃ : Display}
    (h12 : Evol g d₁ d₂) (h23 : Evol g d₂ d₃) : Evol g d₁ d₃ := by
  intro x y
  rcases h23 x y with h | ⟨hX2, hb, hnn, hrc⟩
  · rcases h12 x y with h' | ⟨hX1, hb, hnn, hrc⟩
    · exact Or.inl (h.trans h')
    · exact Or.inr ⟨hX1, hb, hnn, h.trans hrc⟩
  · rcases h12 x y with h' | ⟨hX1, hb', hnn', hrc'⟩
    · exact Or.inr ⟨h' ▸ hX2, hb, hnn, hrc⟩
    · exact Or.inr ⟨hX1, hb', hnn', hrc⟩

theorem evol_upd {g : Game} {d : Display} {row col : Int} {v : String}
    (hb : inB g.rows g.cols row col) (hX : d row col = "X")
    (hnn : 0 ≤ g.grid row col) (hv : v = revealChar (g.grid row col)) :
    Evol g d (upd2 d row col v) := by
  intro x y
  by_cases h : x = row ∧ y = col
  · obtain ⟨rfl, rfl⟩ := h
    rw [upd2_same]
    exact Or.inr ⟨hX, hb, hnn, hv⟩
  · rw [upd2_other _ _ _ _ h]
    exact Or.inl rfl

/-! ### Unfolding equations for the flood fill -/

theorem uncoverD_zero (g : Game) (d : Display) (row col : Int) :
    uncoverD g 0 d row col = d := rfl

theorem uncoverD_succ (g : Game) (fuel : Nat) (d : Display) (row col : Int) :
    uncoverD g (fuel + 1) d row col =
      if ¬ inB g.rows g.cols row col ∨ d row col ≠ "X" then d
      else if d row col = "F" then d
      else if 0 < g.grid row col then
        upd2 d row col (toString (g.grid row col))
      else if g.grid row col = 0 then
        offsets.foldl (floodStep g fuel row col) (upd2 d row col "-")
      else d := rfl

theorem uncoverD_evol (g : Game) :
    ∀ (fuel : Nat) (d : Display) (row col : Int),
      Evol g d (uncoverD g fuel d row col) := by
  intro fuel
  induction fuel with
  | zero => intro d row col; exact evol_refl g d
  | succ fuel ih =>
    intro d row col
    rw [uncoverD_succ]
    by_cases hguard : ¬ inB g.rows g.cols row col ∨ d row col ≠ "X"
    · rw [if_pos hguard]; exact evol_refl g d
    · rw [if_neg hguard]
      push_neg at hguard
      obtain ⟨hb, hX⟩ := hguard
      rw [if_neg (by rw [hX]; decide)]
      by_cases hpos : 0 < g.grid row col
      · rw [if_pos hpos]
        exact evol_upd hb hX (le_of_lt hpos) (revealChar_pos hpos).symm
      · rw [if_neg hpos]
        by_cases hzero : g.grid row col = 0
        · rw [if_pos hzero]
          refine foldl_inv _ (Evol g d) _ _
            (evol_upd hb hX (by omega) (by rw [hzero]; rfl)) ?_
          intro dAcc o _ hP
          unfold floodStep
          by_cases hc : inB g.rows g.cols (row + o.1) (col + o.2) ∧
              0 ≤ g.grid (row + o.1) (col + o.2)
          · rw [if_pos hc]
            exact evol_trans hP (ih dAcc (row + o.1) (col + o.2))
          · rw [if_neg hc]; exact hP
        · rw [if_neg hzero]; exact evol_refl g d

theorem uncoverD_unchanged {g : Game} {d : Display} {x y : Int}
    (h : d x y ≠ "X") (fuel : Nat) (row col : Int) :
    uncoverD g fuel d row col x y = d x y := by
  rcases uncoverD_evol g fuel d row col x y with h' | ⟨hX, _, _, _⟩
  · exact h'
  · exact absurd hX h

theorem uncoverD_target {g : Game} :
    ∀ (fuel : Nat) (d : Display) (row col : Int), 1 ≤ fuel →
      inB g.rows g.cols row col → d row col = "X" →
      0 ≤ g.grid row col →
      uncoverD g fuel d row col row col = revealChar (g.grid row col) := by
  intro fuel d row col hfuel hb hX hnn
  obtain ⟨f, rfl⟩ : ∃ f, fuel = f + 1 :=
    ⟨fuel - 1, by omega⟩
  rw [uncoverD_succ]
  rw [if_neg (by push_neg; exact ⟨hb, hX⟩)]
  rw [if_neg (by rw [hX]; decide)]
  by_cases hpos : 0 < g.grid row col
  · rw [if_pos hpos, upd2_same, revealChar_pos hpos]
  · have hzero : g.grid row col = 0 := by omega
    rw [if_neg hpos, if_pos hzero]
    have hres : (offsets.foldl (floodStep g f row col)
        (upd2 d row col "-")) row col = "-" := by
      refine foldl_inv _ (fun dAcc : Display => dAcc row col = "-") _ _
        (upd2_same _ _ _ _) ?_
      intro dAcc o _ hP
      unfold floodStep
      by_cases hc : inB g.rows g.cols (row + o.1) (col + o.2) ∧
          0 ≤ g.grid (row + o.1) (col + o.2)
      · rw [if_pos hc]
        rw [uncoverD_unchanged (by rw [hP]; decide), hP]
      · rw [if_neg hc]; exact hP
    rw [hres, hzero]
    rfl

/-! ### Hidden-cell counting and reachability -/

theorem evol_X_back {g : Game} {d d' : Display} (he : Evol g d d') :
    ∀ x y, d' x y = "X" → d x y = "X" := by
  intro x y h
  rcases he x y with h' | ⟨hX, _, _, _⟩
  · rw [← h']; exact h
  · exact hX

theorem hiddenN_evol_le {g : Game} {d d' : Display} (he : Evol g d d') :
    hiddenN g.rows g.cols d' ≤ hiddenN g.rows g.cols d := by
  unfold hiddenN
  refine List.countP_mono_left ?_
  intro p _ hp
  exact decide_eq_true (evol_X_back he p.1 p.2 (of_decide_eq_true hp))

theorem hiddenN_upd_lt {g : Game} {d : Display} {row col : Int}
    (hb : inB g.rows g.cols row col) (hX : d row col = "X") :
    hiddenN g.rows g.cols (upd2 d row col "-") < hiddenN g.rows g.cols d := by
  unfold hiddenN
  refine countP_lt_of_mem ?_
    ((mem_coordList (p := (row, col))).mpr hb) (decide_eq_true hX) ?_
  · intro a _ ha
    have h' := of_decide_eq_true ha
    by_cases hcase : a.1 = row ∧ a.2 = col
    · exfalso
      rw [hcase.1, hcase.2, upd2_same] at h'
      exact absurd h' (by decide)
    · rw [upd2_other _ _ _ _ hcase] at h'
      exact decide_eq_true h'
  · apply decide_eq_false
    show ¬ upd2 d row col "-" (row, col).1 (row, col).2 = "X"
    rw [upd2_same]
    decide

theorem reach_trans {g : Game} {d : Display} {s p q : Int × Int}
    (h1 : Reach g d s p) (h2 : Reach g d p q) : Reach g d s q := by
  induction h2 with
  | refl => exact h1
  | step _ hb hX h0 hadj ih => exact Reach.step ih hb hX h0 hadj

theorem reach_mono {g : Game} {d d' : Display}
    (hmono : ∀ x y, d' x y = "X" → d x y = "X") {s p : Int × Int}
    (h : Reach g d' s p) : Reach g d s p := by
  induction h with
  | refl => exact Reach.refl
  | step _ hb hX h0 hadj ih => exact Reach.step ih hb (hmono _ _ hX) h0 hadj

/-- Soundness of the flood fill: only cells cascade-reachable from the
start are touched. -/
theorem uncoverD_sound (g : Game) :
    ∀ (fuel : Nat) (d : Display) (row col x y : Int),
      uncoverD g fuel d row col x y ≠ d x y →
      Reach g d (row, col) (x, y) := by
  intro fuel
  induction fuel with
  | zero => intro d row col x y h; exact absurd rfl h
  | succ fuel ih =>
    intro d row col x y h
    rw [uncoverD_succ] at h
    by_cases hguard : ¬ inB g.rows g.cols row col ∨ d row col ≠ "X"
    · rw [if_pos hguard] at h; exact absurd rfl h
    · rw [if_neg hguard] at h
      push_neg at hguard
      obtain ⟨hb, hX⟩ := hguard
      rw [if_neg (by rw [hX]; decide)] at h
      by_cases hpos : 0 < g.grid row col
      · rw [if_pos hpos] at h
        by_cases hcase : x = row ∧ y = col
        · obtain ⟨rfl, rfl⟩ := hcase; exact Reach.refl
        · rw [upd2_other _ _ _ _ hcase] at h; exact absurd rfl h
      · rw [if_neg hpos] at h
        by_cases hzero : g.grid row col = 0
        · rw [if_pos hzero] at h
          refine (foldl_inv _
            (fun dAcc : Display => Evol g d dAcc ∧
              ∀ u v, dAcc u v ≠ d u v → Reach g d (row, col) (u, v))
            offsets (upd2 d row col "-") ⟨?_, ?_⟩ ?_).2 x y h
          · exact evol_upd hb hX (by omega) (by rw [hzero]; rfl)
          · intro u v huv
            by_cases hcase : u = row ∧ v = col
            · obtain ⟨rfl, rfl⟩ := hcase; exact Reach.refl
            · rw [upd2_other _ _ _ _ hcase] at huv
              exact absurd rfl huv
          · intro dAcc o ho hPd
            unfold floodStep
            by_cases hc : inB g.rows g.cols (row + o.1) (col + o.2) ∧
                0 ≤ g.grid (row + o.1) (col + o.2)
            · rw [if_pos hc]
              refine ⟨evol_trans hPd.1 (uncoverD_evol g fuel dAcc _ _), ?_⟩
              intro u v huv
              by_cases hchanged : dAcc u v = d u v
              · have hne : uncoverD g fuel dAcc (row + o.1) (col + o.2) u v
                    ≠ dAcc u v := by rw [hchanged]; exact huv
                have hreach := ih dAcc (row + o.1) (col + o.2) u v hne
                have hreach' : Reach g d (row + o.1, col + o.2) (u, v) :=
                  reach_mono (evol_X_back hPd.1) hreach
                have hstep : Reach g d (row, col) (row + o.1, col + o.2) :=
                  Reach.step Reach.refl hb hX hzero (adj_offset ho)
                exact reach_trans hstep hreach'
              · exact hPd.2 u v hchanged
            · rw [if_neg hc]; exact hPd
        · rw [if_neg hzero] at h; exact absurd rfl h

/-- A cell that already shows its reveal glyph keeps it through any
further flood fill. -/
theorem uncover_keeps_glyph {g : Game} (hg : gridOK g) {dAcc : Display}
    {n1 n2 : Int} (hbn : inB g.rows g.cols n1 n2) (hnn : 0 ≤ g.grid n1 n2)
    (hval : dAcc n1 n2 = revealChar (g.grid n1 n2)) (fuel : Nat)
    (r c : Int) :
    uncoverD g fuel dAcc r c n1 n2 = revealChar (g.grid n1 n2) := by
  rw [uncoverD_unchanged
    (by rw [hval]; exact revealChar_ne_X hnn (hg n1 n2 hbn).2), hval]

/-- The flood fill's neighbor loop preserves `Qclosed`. -/
theorem flood_step_inv (g : Game) (hg : gridOK g) (fuel : Nat)
    (d : Display) (row col : Int)
    (ih : ∀ (d' : Display) (r' c' : Int),
      hiddenN g.rows g.cols d' + 1 ≤ fuel →
      ∀ x y, d' x y = "X" → uncoverD g fuel d' r' c' x y = "-" →
        ∀ o ∈ offsets, inB g.rows g.cols (x + o.1) (y + o.2) →
          0 ≤ g.grid (x + o.1) (y + o.2) →
          (uncoverD g fuel d' r' c' (x + o.1) (y + o.2)
              = revealChar (g.grid (x + o.1) (y + o.2)) ∨
            d' (x + o.1) (y + o.2) ≠ "X"))
    (hb : inB g.rows g.cols row col) (hXs : d row col = "X")
    (hfuel : hiddenN g.rows g.cols d ≤ fuel) :
    ∀ (dAcc : Display) (a : Int × Int) (t : List (Int × Int)),
      Qclosed g d row col dAcc (a :: t) →
      Qclosed g d row col (floodStep g fuel row col dAcc a) t := by
  intro dAcc a t hQd
  unfold Qclosed at hQd ⊢
  obtain ⟨hEv, hCl, hPr⟩ := hQd
  have hfb : hiddenN g.rows g.cols dAcc + 1 ≤ fuel := by
    have h1 := hiddenN_evol_le hEv
    have h2 := hiddenN_upd_lt hb hXs
    omega
  unfold floodStep
  by_cases hc : inB g.rows g.cols (row + a.1) (col + a.2) ∧
      0 ≤ g.grid (row + a.1) (col + a.2)
  · rw [if_pos hc]
    refine ⟨evol_trans hEv (uncoverD_evol g fuel dAcc _ _), ?_, ?_⟩
    · -- closedness clause for newly revealed cells
      intro u v hXu hmu o' ho' hbo' hnno'
      by_cases hold : dAcc u v = "-"
      · -- the cell was already newly revealed before this step
        rcases hCl u v hXu hold o' ho' hbo' hnno' with hrc | hnX
        · exact Or.inl (uncover_keeps_glyph hg hbo' hnno' hrc fuel _ _)
        · exact Or.inr hnX
      · -- the cell was revealed by this sub-call
        have hXacc : dAcc u v = "X" := by
          rcases hEv u v with he | ⟨hX1, hb1, hnn1, hrc1⟩
          · rw [he]; exact hXu
          · exfalso
            by_cases hz : g.grid u v = 0
            · rw [hz] at hrc1
              exact hold hrc1
            · have hpos1 : 0 < g.grid u v := by omega
              have hkeep := uncover_keeps_glyph hg hb1 hnn1 hrc1 fuel
                (row + a.1) (col + a.2)
              rw [hkeep] at hmu
              rw [revealChar_pos hpos1] at hmu
              exact absurd hmu
                (toString_small_ne hpos1 (hg u v hb1).2).2.1
        rcases ih dAcc (row + a.1) (col + a.2) hfb u v hXacc hmu
            o' ho' hbo' hnno' with hrc | hnX
        · exact Or.inl hrc
        · -- the neighbor was not hidden in dAcc
          rcases hEv (u + o'.1) (v + o'.2) with he | ⟨hX1, hb1,
              hnn1, hrc1⟩
          · exact Or.inr (by rw [← he]; exact hnX)
          · exact Or.inl (uncover_keeps_glyph hg hbo' hnno' hrc1
              fuel _ _)
    · -- bookkeeping clause for processed neighbor offsets
      intro o' ho' hnot hbo' hnno'
      by_cases hoa : o' = a
      · subst hoa
        by_cases hXn : dAcc (row + o'.1) (col + o'.2) = "X"
        · exact Or.inl (uncoverD_target fuel dAcc
            (row + o'.1) (col + o'.2) (by omega) hbo' hXn hnno')
        · rcases hEv (row + o'.1) (col + o'.2) with he | ⟨hX1,
              hb1, hnn1, hrc1⟩
          · exact Or.inr (by rw [← he]; exact hXn)
          · exact Or.inl (uncover_keeps_glyph hg hbo' hnno'
              hrc1 fuel _ _)
      · have hnot' : o' ∉ a :: t := by
          intro hmem
          rcases List.mem_cons.mp hmem with he | he
          · exact hoa he
          · exact hnot he
        rcases hPr o' ho' hnot' hbo' hnno' with hrc | hnX
        · exact Or.inl (uncover_keeps_glyph hg hbo' hnno' hrc fuel _ _)
        · exact Or.inr hnX
  · rw [if_neg hc]
    refine ⟨hEv, hCl, ?_⟩
    intro o' ho' hnot hbo' hnno'
    by_cases hoa : o' = a
    · subst hoa
      exact absurd ⟨hbo', hnno'⟩ hc
    · have hnot' : o' ∉ a :: t := by
        intro hmem
        rcases List.mem_cons.mp hmem with he | he
        · exact hoa he
        · exact hnot he
      exact hPr o' ho' hnot' hbo' hnno'

/-- Closedness of the flood fill: when a hidden cell is newly turned over
to `"-"` (with sufficient fuel), every in-bounds non-mine neighbor ends up
showing its reveal glyph, unless it was not hidden to begin with. -/
theorem uncoverD_closed (g : Game) (hg : gridOK g) :
    ∀ (fuel : Nat) (d : Display) (row col : Int),
      hiddenN g.rows g.cols d + 1 ≤ fuel →
      ∀ x y, d x y = "X" → uncoverD g fuel d row col x y = "-" →
        ∀ o ∈ offsets, inB g.rows g.cols (x + o.1) (y + o.2) →
          0 ≤ g.grid (x + o.1) (y + o.2) →
          (uncoverD g fuel d row col (x + o.1) (y + o.2)
              = revealChar (g.grid (x + o.1) (y + o.2)) ∨
            d (x + o.1) (y + o.2) ≠ "X") := by
  intro fuel
  induction fuel with
  | zero => intro d row col hfuel; omega
  | succ fuel ih =>
    intro d row col hfuel x y hX hres o ho hbo hnno
    rw [uncoverD_succ] at hres ⊢
    by_cases hguard : ¬ inB g.rows g.cols row col ∨ d row col ≠ "X"
    · rw [if_pos hguard] at hres ⊢
      exact absurd (hX.symm.trans hres) (by decide)
    · rw [if_neg hguard] at hres ⊢
      push_neg at hguard
      obtain ⟨hb, hXs⟩ := hguard
      rw [if_neg (by rw [hXs]; decide)] at hres ⊢
      by_cases hpos : 0 < g.grid row col
      · rw [if_pos hpos] at hres ⊢
        by_cases hcase : x = row ∧ y = col
        · obtain ⟨rfl, rfl⟩ := hcase
          rw [upd2_same] at hres
          exact absurd hres (toString_small_ne hpos (hg x y hb).2).2.1
        · rw [upd2_other _ _ _ _ hcase] at hres
          exact absurd (hX.symm.trans hres) (by decide)
      · rw [if_neg hpos] at hres ⊢
        by_cases hzero : g.grid row col = 0
        · rw [if_pos hzero] at hres ⊢
          have hbase : Qclosed g d row col (upd2 d row col "-") offsets := by
            unfold Qclosed
            refine ⟨evol_refl g _, ?_, ?_⟩
            · intro u v hXu hmu
              exact absurd (hXu.symm.trans hmu) (by decide)
            · intro o' ho' hnot
              exact absurd ho' hnot
          have hQ := foldl_suffix_inv (floodStep g fuel row col)
            (Qclosed g d row col)
            (flood_step_inv g hg fuel d row col ih hb hXs (by omega))
            offsets (upd2 d row col "-") hbase
          unfold Qclosed at hQ
          obtain ⟨hEvF, hClF, hPrF⟩ := hQ
          by_cases hcase : x = row ∧ y = col
          · obtain ⟨rfl, rfl⟩ := hcase
            rcases hPrF o ho (List.not_mem_nil o) hbo hnno
                with hrc | hnX
            · exact Or.inl hrc
            · refine Or.inr ?_
              rw [upd2_other _ _ _ _ (nbr_ne_self ho)] at hnX
              exact hnX
          · have hX1 : upd2 d row col "-" x y = "X" := by
              rw [upd2_other _ _ _ _ hcase]
              exact hX
            rcases hClF x y hX1 hres o ho hbo hnno with hrc | hnX
            · exact Or.inl hrc
            · by_cases hnbr : x + o.1 = row ∧ y + o.2 = col
              · refine Or.inl ?_
                obtain ⟨e1, e2⟩ := hnbr
                rw [e1, e2]
                have hF : (offsets.foldl (floodStep g fuel row col)
                    (upd2 d row col "-")) row col = "-" := by
                  rcases hEvF row col with he | ⟨hX2, _, _, _⟩
                  · rw [he, upd2_same]
                  · exfalso
                    rw [upd2_same] at hX2
                    exact absurd hX2 (by decide)
                rw [hF, hzero]
                rfl
              · refine Or.inr ?_
                rw [upd2_other _ _ _ _ hnbr] at hnX
                exact hnX
        · rw [if_neg hzero] at hres ⊢
          exact absurd (hX.symm.trans hres) (by decide)

/-- Completeness of the flood fill: every cascade-reachable hidden
non-mine cell ends up showing its reveal glyph. -/
theorem uncoverD_complete (g : Game) (hg : gridOK g)
    {fuel : Nat} {d : Display} {row col : Int}
    (hfuel : hiddenN g.rows g.cols d + 1 ≤ fuel)
    (hb : inB g.rows g.cols row col) (hX : d row col = "X") :
    ∀ p : Int × Int, Reach g d (row, col) p → inB g.rows g.cols p.1 p.2 →
      d p.1 p.2 = "X" → 0 ≤ g.grid p.1 p.2 →
      uncoverD g fuel d row col p.1 p.2 = revealChar (g.grid p.1 p.2) := by
  intro p hr
  induction hr with
  | refl =>
    intro _ _ hnn
    exact uncoverD_target fuel d row col (by omega) hb hX hnn
  | @step p' q hr' hbp hXp h0p hadj ih =>
    intro hbq hXq hnnq
    have hprev : uncoverD g fuel d row col p'.1 p'.2
        = revealChar (g.grid p'.1 p'.2) := ih hbp hXp (by rw [h0p])
    have hprev' : uncoverD g fuel d row col p'.1 p'.2 = "-" := by
      rw [hprev, h0p]; rfl
    obtain ⟨o, ho, heq⟩ := adj_dest hadj
    subst heq
    rcases uncoverD_closed g hg fuel d row col hfuel p'.1 p'.2 hXp hprev'
        o ho hbq hnnq with hrc | hnX
    · exact hrc
    · exact absurd hXq hnX

/-- Exact characterization of one flood fill from a hidden zero cell:
a cell changes exactly when it is cascade-reachable, in bounds, hidden and
not a mine, in which case it changes to its reveal glyph. -/
theorem uncoverD_characterize (g : Game) (hg : gridOK g)
    {fuel : Nat} {d : Display} {row col : Int}
    (hfuel : hiddenN g.rows g.cols d + 1 ≤ fuel)
    (hb : inB g.rows g.cols row col) (hX : d row col = "X")
    (x y : Int) :
    (CascadeHits g d (row, col) (x, y) →
      uncoverD g fuel d row col x y = revealChar (g.grid x y)) ∧
    (¬ CascadeHits g d (row, col) (x, y) →
      uncoverD g fuel d row col x y = d x y) := by
  constructor
  · intro hch
    obtain ⟨hr, hb', hX', hnn'⟩ := hch
    exact uncoverD_complete g hg hfuel hb hX (x, y) hr hb' hX' hnn'
  · intro hnc
    by_cases hne : uncoverD g fuel d row col x y = d x y
    · exact hne
    · exfalso
      have hr := uncoverD_sound g fuel d row col x y hne
      rcases uncoverD_evol g fuel d row col x y with he | ⟨hX', hb', hnn', _⟩
      · exact hne he
      · exact hnc ⟨hr, hb', hX', hnn'⟩

/-- From a start cell with nonzero count, nothing but the start itself is
cascade-reachable. -/
theorem reach_of_nonzero {g : Game} {d : Display} {row col : Int}
    (hnz : g.grid row col ≠ 0) {p : Int × Int}
    (h : Reach g d (row, col) p) : p = (row, col) := by
  induction h with
  | refl => rfl
  | @step p' q hr' hbp hXp h0p hadj ih =>
    exfalso
    rw [ih] at h0p
    exact hnz h0p

/-- The cascade's hit set decomposes into the uncovered zero component and
its numbered border. -/
theorem cascadeHits_iff (g : Game) {d : Display} {row col : Int}
    (h0 : g.grid row col = 0) (p : Int × Int) :
    CascadeHits g d (row, col) p ↔
      ZPart g d (row, col) p ∨ NumBorder g d (row, col) p := by
  constructor
  · intro hch
    obtain ⟨hr, hb', hX', hnn'⟩ := hch
    by_cases hz : g.grid p.1 p.2 = 0
    · exact Or.inl ⟨hr, hb', hX', hz⟩
    · have hpos : 0 < g.grid p.1 p.2 := by omega
      refine Or.inr ⟨hb', hX', hpos, ?_⟩
      cases hr with
      | refl => exact absurd h0 hz
      | @step p' q hr' hbp hXp h0p hadj =>
        exact ⟨p', ⟨hr', hbp, hXp, h0p⟩, hadj⟩
  · intro hd
    rcases hd with ⟨hr, hb', hX', hz⟩ | ⟨hb', hX', hpos, p', hzp, hadj⟩
    · exact ⟨hr, hb', hX', by omega⟩
    · obtain ⟨hr', hbp', hXp', hzp'⟩ := hzp
      exact ⟨Reach.step hr' hbp' hXp' hzp' hadj, hb', hX', le_of_lt hpos⟩

/-! ### Mine placement and adjacency indicators -/

theorem countAdj_eq (rows cols : Int) (grid : Grid) (r c : Int) :
    countAdj rows cols grid r c
      = ((offsets.countP (fun o =>
          decide (inB rows cols (r + o.1) (c + o.2) ∧
            grid (r + o.1) (c + o.2) = -1))) : Int) := by
  unfold countAdj
  rw [count_foldl_eq_countP]
  rw [zero_add]

theorem countAdj_nonneg (rows cols : Int) (grid : Grid) (r c : Int) :
    0 ≤ countAdj rows cols grid r c := by
  rw [countAdj_eq]
  omega

theorem countAdj_le_8 (rows cols : Int) (grid : Grid) (r c : Int) :
    countAdj rows cols grid r c ≤ 8 := by
  rw [countAdj_eq]
  have h := List.countP_le_length
    (p := fun o => decide (inB rows cols (r + o.1) (c + o.2) ∧
      grid (r + o.1) (c + o.2) = -1)) (l := offsets)
  have h8 : offsets.length = 8 := rfl
  omega

theorem countAdj_congr (rows cols : Int) {g₁ g₂ : Grid} (r c : Int)
    (h : ∀ u v, g₁ u v = -1 ↔ g₂ u v = -1) :
    countAdj rows cols g₁ r c = countAdj rows cols g₂ r c := by
  rw [countAdj_eq, countAdj_eq]
  congr 1
  refine List.countP_congr ?_
  intro o _
  simp only [decide_eq_true_eq]
  exact ⟨fun hx => ⟨hx.1, (h _ _).1 hx.2⟩, fun hx => ⟨hx.1, (h _ _).2 hx.2⟩⟩

theorem assignBombs_eq (target : Int) (picks : List (Int × Int))
    (placed : Int) (grid : Grid) :
    assignBombs target picks placed grid =
      if placed = target then some grid
      else
        match picks with
        | [] => none
        | p :: rest =>
            if grid p.1 p.2 ≠ -1
            then assignBombs target rest (placed + 1) (upd2 grid p.1 p.2 (-1))
            else assignBombs target rest placed grid := by
  cases picks <;> rfl

/-- If the rejection loop terminates, exactly `target` in-bounds cells
hold a mine (assuming the random picks are in bounds, as `random.randint`
guarantees). -/
theorem assignBombs_count (rows cols target : Int) :
    ∀ (picks : List (Int × Int)) (placed : Int) (grid grid' : Grid),
      (∀ p ∈ picks, inB rows cols p.1 p.2) →
      (((coordList rows cols).countP
          (fun p => grid p.1 p.2 = -1)) : Int) = placed →
      assignBombs target picks placed grid = some grid' →
      (((coordList rows cols).countP
          (fun p => grid' p.1 p.2 = -1)) : Int) = target := by
  intro picks
  induction picks with
  | nil =>
    intro placed grid grid' _ hcount hab
    rw [assignBombs_eq] at hab
    by_cases hpt : placed = target
    · rw [if_pos hpt] at hab
      obtain rfl : grid = grid' := Option.some.injEq _ _ ▸ hab
      omega
    · rw [if_neg hpt] at hab
      exact Option.noConfusion hab
  | cons p rest ih =>
    intro placed grid grid' hpicks hcount hab
    rw [assignBombs_eq] at hab
    by_cases hpt : placed = target
    · rw [if_pos hpt] at hab
      obtain rfl : grid = grid' := Option.some.injEq _ _ ▸ hab
      omega
    · rw [if_neg hpt] at hab
      have hab' : (if grid p.1 p.2 ≠ -1
          then assignBombs target rest (placed + 1) (upd2 grid p.1 p.2 (-1))
          else assignBombs target rest placed grid) = some grid' := hab
      by_cases hm : grid p.1 p.2 ≠ -1
      · rw [if_pos hm] at hab'
        refine ih (placed + 1) (upd2 grid p.1 p.2 (-1)) grid'
          (fun q hq => hpicks q (List.mem_cons_of_mem p hq)) ?_ hab'
        have hmemp : p ∈ coordList rows cols :=
          mem_coordList.mpr (hpicks p (List.mem_cons_self p rest))
        have hupd := countP_point_update (nodup_coordList rows cols) hmemp
          (P := fun q => decide (grid q.1 q.2 = -1))
          (Q := fun q => decide (upd2 grid p.1 p.2 (-1) q.1 q.2 = -1))
          ?_ (decide_eq_false hm) ?_
        · rw [hupd]
          push_cast
          omega
        · intro a _ hne
          have hne' : ¬ (a.1 = p.1 ∧ a.2 = p.2) := by
            intro hcase
            exact hne (Prod.ext hcase.1 hcase.2)
          show decide (grid a.1 a.2 = -1)
            = decide (upd2 grid p.1 p.2 (-1) a.1 a.2 = -1)
          rw [upd2_other _ _ _ _ hne']
        · apply decide_eq_true
          show upd2 grid p.1 p.2 (-1) p.1 p.2 = -1
          rw [upd2_same]
      · rw [if_neg hm] at hab'
        exact ih placed grid grid'
          (fun q hq => hpicks q (List.mem_cons_of_mem p hq)) hcount hab'

theorem calcIndicators_eq (rows cols : Int) (grid : Grid) :
    calcIndicators rows cols grid
      = (coordList rows cols).foldl (indStep rows cols) grid := rfl

/-- The indicator loop preserves `Qcalc`.  In particular the in-place
sequential update is harmless: a non-mine cell's new value is nonnegative,
so the set of `-1` cells the later counts test against never changes. -/
theorem indStep_inv (rows cols : Int) (grid : Grid) :
    ∀ (gAcc : Grid) (a : Int × Int) (t : List (Int × Int)),
      Qcalc rows cols grid gAcc (a :: t) →
      Qcalc rows cols grid (indStep rows cols gAcc a) t := by
  intro gAcc a t hQ
  unfold Qcalc at hQ ⊢
  obtain ⟨hsub, hmines, hrem, hdone⟩ := hQ
  have hsub' : t.Sublist (coordList rows cols) :=
    (List.sublist_cons_self a t).trans hsub
  have hmem_a : a ∈ coordList rows cols :=
    hsub.subset (List.mem_cons_self a t)
  have hnodup_at : a ∉ t := by
    have hnd : (a :: t).Nodup := (nodup_coordList rows cols).sublist hsub
    exact (List.nodup_cons.mp hnd).1
  unfold indStep
  by_cases hm : gAcc a.1 a.2 ≠ -1
  · rw [if_pos hm]
    refine ⟨hsub', ?_, ?_, ?_⟩
    · intro u v
      by_cases hcase : u = a.1 ∧ v = a.2
      · obtain ⟨rfl, rfl⟩ := hcase
        rw [upd2_same]
        constructor
        · intro hc
          exfalso
          have := countAdj_nonneg rows cols gAcc a.1 a.2
          omega
        · intro hgm
          exact absurd ((hmines _ _).mpr hgm) hm
      · rw [upd2_other _ _ _ _ hcase]
        exact hmines u v
    · intro p hp
      have hpa : ¬ (p.1 = a.1 ∧ p.2 = a.2) := by
        intro hcase
        exact hnodup_at ((Prod.ext hcase.1 hcase.2 : p = a) ▸ hp)
      rw [upd2_other _ _ _ _ hpa]
      exact hrem p (List.mem_cons_of_mem a hp)
    · intro p hpmem hpnot
      by_cases hpa : p = a
      · subst hpa
        rw [upd2_same]
        have hga : gAcc p.1 p.2 = grid p.1 p.2 :=
          hrem p (List.mem_cons_self p t)
        have hgridne : ¬ grid p.1 p.2 = -1 := by rw [← hga]; exact hm
        rw [if_neg hgridne]
        exact countAdj_congr rows cols p.1 p.2 hmines
      · have hpnott : p ∉ a :: t := by
          intro hmem
          rcases List.mem_cons.mp hmem with he | he
          · exact hpa he
          · exact hpnot he
        have hpa' : ¬ (p.1 = a.1 ∧ p.2 = a.2) := by
          intro hcase
          exact hpa (Prod.ext hcase.1 hcase.2)
        rw [upd2_other _ _ _ _ hpa']
        exact hdone p hpmem hpnott
  · rw [if_neg hm]
    push_neg at hm
    refine ⟨hsub', hmines,
      fun p hp => hrem p (List.mem_cons_of_mem a hp), ?_⟩
    intro p hpmem hpnot
    by_cases hpa : p = a
    · subst hpa
      rw [if_pos ((hmines _ _).mp hm)]
      exact hm
    · have hpnott : p ∉ a :: t := by
        intro hmem
        rcases List.mem_cons.mp hmem with he | he
        · exact hpa he
        · exact hpnot he
      exact hdone p hpmem hpnott

/-- What `_calculate_mine_indicators` computes: mines stay `-1`, every
other cell of the board receives its adjacent-mine count (with respect to
the final mine placement). -/
theorem calcIndicators_spec (rows cols : Int) (grid : Grid) :
    (∀ u v, calcIndicators rows cols grid u v = -1 ↔ grid u v = -1) ∧
    (∀ p : Int × Int, p ∈ coordList rows cols →
      calcIndicators rows cols grid p.1 p.2
        = if grid p.1 p.2 = -1 then -1
          else countAdj rows cols grid p.1 p.2) := by
  have hQ := foldl_suffix_inv (indStep rows cols)
    (Qcalc rows cols grid) (indStep_inv rows cols grid)
    (coordList rows cols) grid
    ⟨List.Sublist.refl _, fun _ _ => Iff.rfl, fun _ _ => rfl,
      fun p hp hnp => absurd hp hnp⟩
  unfold Qcalc at hQ
  obtain ⟨_, hmines, _, hdone⟩ := hQ
  rw [calcIndicators_eq]
  exact ⟨hmines, fun p hp => hdone p hp (List.not_mem_nil p)⟩

/-- The code's 8-offset adjacent-mine count agrees with the
specification-side count over all board cells that are adjacent and
mined. -/
theorem adjMines_eq_countAdj (g : Game) (x y : Int) :
    (adjMines g x y : Int) = countAdj g.rows g.cols g.grid x y := by
  rw [countAdj_eq]
  congr 1
  unfold adjMines
  have hnodupL : ((coordList g.rows g.cols).filter
      (fun q => decide (adj (x, y) q ∧ g.grid q.1 q.2 = -1))).Nodup :=
    (nodup_coordList g.rows g.cols).filter _
  have hnodupR : ((offsets.map (fun o => (x + o.1, y + o.2))).filter
      (fun q => decide (inB g.rows g.cols q.1 q.2 ∧
        g.grid q.1 q.2 = -1))).Nodup := by
    refine List.Nodup.filter _ ?_
    refine (by decide : offsets.Nodup).map ?_
    intro o₁ o₂ h
    have h1 : x + o₁.1 = x + o₂.1 := congrArg Prod.fst h
    have h2 : y + o₁.2 = y + o₂.2 := congrArg Prod.snd h
    obtain ⟨a1, a2⟩ := o₁
    obtain ⟨b1, b2⟩ := o₂
    rw [Prod.mk.injEq]
    constructor <;> omega
  have hcomp : (offsets.map (fun o => (x + o.1, y + o.2))).countP
      (fun q => decide (inB g.rows g.cols q.1 q.2 ∧ g.grid q.1 q.2 = -1))
      = offsets.countP (fun o =>
          decide (inB g.rows g.cols (x + o.1) (y + o.2) ∧
            g.grid (x + o.1) (y + o.2) = -1)) := by
    rw [List.countP_map]
    rfl
  rw [← hcomp, List.countP_eq_length_filter, List.countP_eq_length_filter]
  refine List.Perm.length_eq ?_
  refine (List.perm_ext_iff_of_nodup hnodupL hnodupR).mpr ?_
  intro a
  rw [List.mem_filter, List.mem_filter]
  constructor
  · intro ⟨hmem, hpq⟩
    rw [decide_eq_true_eq] at hpq
    obtain ⟨hadj, hmine⟩ := hpq
    have hin : inB g.rows g.cols a.1 a.2 := mem_coordList.mp hmem
    refine ⟨?_, ?_⟩
    · rw [List.mem_map]
      obtain ⟨o, ho, heq⟩ := adj_dest hadj
      exact ⟨o, ho, heq.symm⟩
    · rw [decide_eq_true_eq]
      exact ⟨hin, hmine⟩
  · intro ⟨hmem, hpq⟩
    rw [decide_eq_true_eq] at hpq
    obtain ⟨hin, hmine⟩ := hpq
    refine ⟨mem_coordList.mpr hin, ?_⟩
    rw [decide_eq_true_eq]
    refine ⟨?_, hmine⟩
    rw [List.mem_map] at hmem
    obtain ⟨o, ho, heq⟩ := hmem
    rw [← heq]
    exact adj_offset ho

/-- Inversion for a successful `setup_game`. -/
theorem setupGame_ok_inv {rows cols numMines : Int}
    {picks : List (Int × Int)} {g : Game}
    (hok : setupGame rows cols numMines picks = .ok g) :
    g.rows = rows ∧ g.cols = cols ∧ g.numMines = numMines ∧
    g.display = (fun _ _ => "X") ∧ g.gameOver = false ∧ g.won = false ∧
    g.minesFlagged = 0 ∧ ¬ numMines ≥ rows * cols ∧
    ∃ grid1 : Grid, assignBombs numMines picks 0 (fun _ _ => 0) = some grid1 ∧
      g.grid = calcIndicators rows cols grid1 := by
  unfold setupGame at hok
  by_cases hc : numMines ≥ rows * cols
  · rw [if_pos hc] at hok
    exact SetupOutcome.noConfusion hok
  · rw [if_neg hc] at hok
    cases hab : assignBombs numMines picks 0 (fun _ _ => 0) with
    | none =>
      rw [hab] at hok
      exact SetupOutcome.noConfusion hok
    | some grid1 =>
      rw [hab] at hok
      injection hok with hok'
      subst hok'
      exact ⟨rfl, rfl, rfl, rfl, rfl, rfl, rfl, hc, grid1, rfl, rfl⟩

/-- A successful setup yields a grid whose every in-bounds cell is a mine
or a count in `[0, 8]`. -/
theorem setupGame_gridOK {rows cols numMines : Int}
    {picks : List (Int × Int)} {g : Game}
    (hok : setupGame rows cols numMines picks = .ok g) : gridOK g := by
  obtain ⟨hr, hc, _, _, _, _, _, _, grid1, _, hgrid⟩ := setupGame_ok_inv hok
  intro x y hb
  rw [hr, hc] at hb
  have hspec : calcIndicators rows cols grid1 x y
      = if grid1 x y = -1 then -1 else countAdj rows cols grid1 x y :=
    (calcIndicators_spec rows cols grid1).2 (x, y) (mem_coordList.mpr hb)
  rw [hgrid]
  by_cases hm : grid1 x y = -1
  · rw [hspec, if_pos hm]
    omega
  · rw [hspec, if_neg hm]
    exact ⟨by have := countAdj_nonneg rows cols grid1 x y; omega,
      countAdj_le_8 rows cols grid1 x y⟩

/-- A successful setup satisfies the display/grid consistency invariant
(every cell is Hidden). -/
theorem setupGame_displayInv {rows cols numMines : Int}
    {picks : List (Int × Int)} {g : Game}
    (hok : setupGame rows cols numMines picks = .ok g) : displayInv g := by
  obtain ⟨_, _, _, hd, _, _, _, _, _, _, _⟩ := setupGame_ok_inv hok
  intro x y _
  rw [hd]
  exact Or.inl rfl

/-! ### Branch lemmas for `reveal` and `flag` -/

theorem reveal_gameOver_eq {g : Game} (row col : Int)
    (hgo : g.gameOver = true) :
    reveal g row col = ⟨.gameOverErr, g, none, none⟩ := by
  unfold reveal
  rw [if_pos hgo]

theorem reveal_oob_eq {g : Game} {row col : Int} (hgo : g.gameOver = false)
    (hb : ¬ g.inBounds row col) :
    reveal g row col = ⟨.invalid, g, none, none⟩ := by
  unfold reveal
  rw [if_neg (by rw [hgo]; exact Bool.false_ne_true), if_pos hb]

theorem reveal_flagged_eq {g : Game} {row col : Int}
    (hgo : g.gameOver = false) (hb : g.inBounds row col)
    (hF : g.display row col = "F") :
    reveal g row col = ⟨.invalid, g, none, none⟩ := by
  unfold reveal
  rw [if_neg (by rw [hgo]; exact Bool.false_ne_true),
    if_neg (not_not_intro hb), if_pos hF]

theorem reveal_shown_eq {g : Game} {row col : Int}
    (hgo : g.gameOver = false) (hb : g.inBounds row col)
    (hnF : g.display row col ≠ "F") (hnX : g.display row col ≠ "X") :
    reveal g row col = ⟨.invalid, g, none, none⟩ := by
  unfold reveal
  rw [if_neg (by rw [hgo]; exact Bool.false_ne_true),
    if_neg (not_not_intro hb), if_neg hnF, if_pos hnX]

theorem reveal_mine_eq {g : Game} {row col : Int}
    (hgo : g.gameOver = false) (hb : g.inBounds row col)
    (hX : g.display row col = "X") (hm : g.grid row col = -1) :
    reveal g row col =
      ⟨.mineHit,
       { g with display := upd2 g.display row col "*", gameOver := true },
       some true, some false⟩ := by
  unfold reveal
  rw [if_neg (by rw [hgo]; exact Bool.false_ne_true),
    if_neg (not_not_intro hb), if_neg (by rw [hX]; decide),
    if_neg (not_not_intro hX), if_pos hm]

theorem reveal_safe_eq {g : Game} {row col : Int}
    (hgo : g.gameOver = false) (hb : g.inBounds row col)
    (hX : g.display row col = "X") (hm : g.grid row col ≠ -1) :
    reveal g row col =
      if checkWin (revealFlood g row col) then
        ⟨.wonS,
         { (revealFlood g row col) with gameOver := true, won := true },
         some true, some true⟩
      else
        ⟨.revealed, revealFlood g row col, some false, some false⟩ := by
  unfold reveal
  rw [if_neg (by rw [hgo]; exact Bool.false_ne_true),
    if_neg (not_not_intro hb), if_neg (by rw [hX]; decide),
    if_neg (not_not_intro hX), if_neg hm]

theorem flag_gameOver_eq {g : Game} (row col : Int)
    (hgo : g.gameOver = true) :
    flag g row col = ⟨.gameOverErr, g⟩ := by
  unfold flag
  rw [if_pos hgo]

theorem flag_oob_eq {g : Game} {row col : Int} (hgo : g.gameOver = false)
    (hb : ¬ g.inBounds row col) :
    flag g row col = ⟨.invalid, g⟩ := by
  unfold flag
  rw [if_neg (by rw [hgo]; exact Bool.false_ne_true), if_pos hb]

theorem flag_shown_eq {g : Game} {row col : Int} (hgo : g.gameOver = false)
    (hb : g.inBounds row col)
    (hs : ¬ (g.display row col = "X" ∨ g.display row col = "F")) :
    flag g row col = ⟨.invalid, g⟩ := by
  unfold flag
  rw [if_neg (by rw [hgo]; exact Bool.false_ne_true),
    if_neg (not_not_intro hb), if_pos hs]

theorem flag_hidden_eq {g : Game} {row col : Int} (hgo : g.gameOver = false)
    (hb : g.inBounds row col) (hX : g.display row col = "X") :
    flag g row col =
      ⟨.flagged,
       { g with display := upd2 g.display row col "F",
                minesFlagged := g.minesFlagged + 1 }⟩ := by
  unfold flag
  rw [if_neg (by rw [hgo]; exact Bool.false_ne_true),
    if_neg (not_not_intro hb), if_neg (not_not_intro (Or.inl hX)),
    if_pos hX]

theorem flag_flagged_eq {g : Game} {row col : Int}
    (hgo : g.gameOver = false) (hb : g.inBounds row col)
    (hF : g.display row col = "F") :
    flag g row col =
      ⟨.flagged,
       { g with display := upd2 g.display row col "X",
                minesFlagged := g.minesFlagged - 1 }⟩ := by
  unfold flag
  rw [if_neg (by rw [hgo]; exact Bool.false_ne_true),
    if_neg (not_not_intro hb), if_neg (not_not_intro (Or.inr hF)),
    if_neg (by rw [hF]; decide)]

/-! ### Frame and invariant preservation -/

theorem reveal_frame (g : Game) (row col : Int) :
    (reveal g row col).game.rows = g.rows ∧
    (reveal g row col).game.cols = g.cols ∧
    (reveal g row col).game.numMines = g.numMines ∧
    (reveal g row col).game.grid = g.grid ∧
    (reveal g row col).game.minesFlagged = g.minesFlagged := by
  by_cases hgo : g.gameOver = true
  · rw [reveal_gameOver_eq row col hgo]
    exact ⟨rfl, rfl, rfl, rfl, rfl⟩
  · rw [Bool.not_eq_true] at hgo
    by_cases hb : g.inBounds row col
    · by_cases hF : g.display row col = "F"
      · rw [reveal_flagged_eq hgo hb hF]
        exact ⟨rfl, rfl, rfl, rfl, rfl⟩
      · by_cases hX : g.display row col = "X"
        · by_cases hm : g.grid row col = -1
          · rw [reveal_mine_eq hgo hb hX hm]
            exact ⟨rfl, rfl, rfl, rfl, rfl⟩
          · rw [reveal_safe_eq hgo hb hX hm]
            by_cases hw : checkWin (revealFlood g row col)
            · rw [if_pos hw]
              exact ⟨rfl, rfl, rfl, rfl, rfl⟩
            · rw [if_neg hw]
              exact ⟨rfl, rfl, rfl, rfl, rfl⟩
        · rw [reveal_shown_eq hgo hb hF hX]
          exact ⟨rfl, rfl, rfl, rfl, rfl⟩
    · rw [reveal_oob_eq hgo hb]
      exact ⟨rfl, rfl, rfl, rfl, rfl⟩

theorem flag_frame (g : Game) (row col : Int) :
    (flag g row col).game.rows = g.rows ∧
    (flag g row col).game.cols = g.cols ∧
    (flag g row col).game.numMines = g.numMines ∧
    (flag g row col).game.grid = g.grid ∧
    (flag g row col).game.gameOver = g.gameOver ∧
    (flag g row col).game.won = g.won := by
  by_cases hgo : g.gameOver = true
  · rw [flag_gameOver_eq row col hgo]
    exact ⟨rfl, rfl, rfl, rfl, rfl, rfl⟩
  · rw [Bool.not_eq_true] at hgo
    by_cases hb : g.inBounds row col
    · by_cases hs : g.display row col = "X" ∨ g.display row col = "F"
      · rcases hs with hX | hF
        · rw [flag_hidden_eq hgo hb hX]
          exact ⟨rfl, rfl, rfl, rfl, rfl, rfl⟩
        · by_cases hX : g.display row col = "X"
          · rw [flag_hidden_eq hgo hb hX]
            exact ⟨rfl, rfl, rfl, rfl, rfl, rfl⟩
          · rw [flag_flagged_eq hgo hb hF]
            exact ⟨rfl, rfl, rfl, rfl, rfl, rfl⟩
      · rw [flag_shown_eq hgo hb hs]
        exact ⟨rfl, rfl, rfl, rfl, rfl, rfl⟩
    · rw [flag_oob_eq hgo hb]
      exact ⟨rfl, rfl, rfl, rfl, rfl, rfl⟩

theorem gridOK_applyOp {g : Game} (hg : gridOK g) (op : Op) :
    gridOK (applyOp g op) := by
  cases op with
  | rev row col =>
    obtain ⟨h1, h2, _, h4, _⟩ := reveal_frame g row col
    unfold gridOK
    unfold applyOp
    simp only [h1, h2, h4]
    exact hg
  | flg row col =>
    obtain ⟨h1, h2, _, h4, _, _⟩ := flag_frame g row col
    unfold gridOK
    unfold applyOp
    simp only [h1, h2, h4]
    exact hg

/-- The flood fill preserves the display/grid consistency clauses. -/
theorem uncover_displayInv (g : Game) (hg : gridOK g)
    (hinv : displayInv g) (fuel : Nat) (row col : Int) :
    ∀ x y, inB g.rows g.cols x y →
      uncoverD g fuel g.display row col x y = "X" ∨
      uncoverD g fuel g.display row col x y = "F" ∨
      (uncoverD g fuel g.display row col x y = "-" ∧ g.grid x y = 0) ∨
      (uncoverD g fuel g.display row col x y = "*" ∧ g.grid x y = -1) ∨
      (∃ dv : Int, 1 ≤ dv ∧ dv ≤ 8 ∧ g.grid x y = dv ∧
        uncoverD g fuel g.display row col x y = toString dv) := by
  intro x y hb
  rcases uncoverD_evol g fuel g.display row col x y with he | ⟨_, _, hnn, hrc⟩
  · rw [he]
    exact hinv x y hb
  · rw [hrc]
    by_cases hz : g.grid x y = 0
    · rw [hz]
      exact Or.inr (Or.inr (Or.inl ⟨rfl, rfl⟩))
    · have hpos : 0 < g.grid x y := by omega
      rw [revealChar_pos hpos]
      exact Or.inr (Or.inr (Or.inr (Or.inr
        ⟨g.grid x y, by omega, (hg x y hb).2, rfl, rfl⟩)))

/-- `displayInv` holds of a game that shares geometry and grid with `g`
whenever its display satisfies the pointwise clauses against `g`. -/
theorem displayInv_of_pointwise {g h : Game} (hr : h.rows = g.rows)
    (hc : h.cols = g.cols) (hgr : h.grid = g.grid)
    (hpt : ∀ x y, inB g.rows g.cols x y →
      h.display x y = "X" ∨ h.display x y = "F" ∨
      (h.display x y = "-" ∧ g.grid x y = 0) ∨
      (h.display x y = "*" ∧ g.grid x y = -1) ∨
      (∃ dv : Int, 1 ≤ dv ∧ dv ≤ 8 ∧ g.grid x y = dv ∧
        h.display x y = toString dv)) : displayInv h := by
  unfold displayInv
  rw [hr, hc, hgr]
  exact hpt

theorem displayInv_applyOp {g : Game} (hg : gridOK g)
    (hinv : displayInv g) (op : Op) : displayInv (applyOp g op) := by
  cases op with
  | rev row col =>
    show displayInv (reveal g row col).game
    by_cases hgo : g.gameOver = true
    · rw [reveal_gameOver_eq row col hgo]; exact hinv
    · rw [Bool.not_eq_true] at hgo
      by_cases hb : g.inBounds row col
      · by_cases hF : g.display row col = "F"
        · rw [reveal_flagged_eq hgo hb hF]; exact hinv
        · by_cases hX : g.display row col = "X"
          · by_cases hm : g.grid row col = -1
            · rw [reveal_mine_eq hgo hb hX hm]
              refine displayInv_of_pointwise rfl rfl rfl ?_
              dsimp only
              intro x y hbxy
              by_cases hcase : x = row ∧ y = col
              · obtain ⟨rfl, rfl⟩ := hcase
                exact Or.inr (Or.inr (Or.inr (Or.inl
                  ⟨upd2_same _ _ _ _, hm⟩)))
              · have hother : upd2 g.display row col "*" x y
                    = g.display x y := upd2_other _ _ _ _ hcase
                show upd2 g.display row col "*" x y = "X" ∨ _
                rw [hother]
                exact hinv x y hbxy
            · rw [reveal_safe_eq hgo hb hX hm]
              by_cases hw : checkWin (revealFlood g row col)
              · rw [if_pos hw]
                refine displayInv_of_pointwise rfl rfl rfl ?_
                dsimp only [revealFlood]
                exact uncover_displayInv g hg hinv _ row col
              · rw [if_neg hw]
                refine displayInv_of_pointwise rfl rfl rfl ?_
                dsimp only [revealFlood]
                exact uncover_displayInv g hg hinv _ row col
          · rw [reveal_shown_eq hgo hb hF hX]; exact hinv
      · rw [reveal_oob_eq hgo hb]; exact hinv
  | flg row col =>
    show displayInv (flag g row col).game
    by_cases hgo : g.gameOver = true
    · rw [flag_gameOver_eq row col hgo]; exact hinv
    · rw [Bool.not_eq_true] at hgo
      by_cases hb : g.inBounds row col
      · by_cases hX : g.display row col = "X"
        · rw [flag_hidden_eq hgo hb hX]
          refine displayInv_of_pointwise rfl rfl rfl ?_
          dsimp only
          intro x y hbxy
          by_cases hcase : x = row ∧ y = col
          · obtain ⟨rfl, rfl⟩ := hcase
            exact Or.inr (Or.inl (upd2_same _ _ _ _))
          · show upd2 g.display row col "F" x y = "X" ∨ _
            rw [upd2_other _ _ _ _ hcase]
            exact hinv x y hbxy
        · by_cases hF : g.display row col = "F"
          · rw [flag_flagged_eq hgo hb hF]
            refine displayInv_of_pointwise rfl rfl rfl ?_
            dsimp only
            intro x y hbxy
            by_cases hcase : x = row ∧ y = col
            · obtain ⟨rfl, rfl⟩ := hcase
              exact Or.inl (upd2_same _ _ _ _)
            · show upd2 g.display row col "X" x y = "X" ∨ _
              rw [upd2_other _ _ _ _ hcase]
              exact hinv x y hbxy
          · rw [flag_shown_eq hgo hb (by
              intro hs
              rcases hs with h | h
              · exact hX h
              · exact hF h)]
            exact hinv
      · rw [flag_oob_eq hgo hb]; exact hinv

/-- Both invariants hold after any action sequence from a successful
setup. -/
theorem runOps_inv {rows cols numMines : Int}
    {picks : List (Int × Int)} {g : Game}
    (hok : setupGame rows cols numMines picks = .ok g) (ops : List Op) :
    gridOK (runOps g ops) ∧ displayInv (runOps g ops) := by
  unfold runOps
  refine foldl_inv applyOp
    (fun h : Game => gridOK h ∧ displayInv h) ops g
    ⟨setupGame_gridOK hok, setupGame_displayInv hok⟩ ?_
  intro h op _ hP
  exact ⟨gridOK_applyOp hP.1 op, displayInv_applyOp hP.1 hP.2 op⟩

/-- On displays satisfying the consistency invariant, `_check_win`'s count
of non-`X`/`F`/`*` cells is exactly the number of Revealed cells. -/
theorem revealedCount_eq_uncoveredCount {g : Game} (hinv : displayInv g) :
    revealedCount g = uncoveredCount g := by
  unfold revealedCount uncoveredCount
  refine List.countP_congr ?_
  intro p hp
  have hb : inB g.rows g.cols p.1 p.2 := mem_coordList.mp hp
  simp only [decide_eq_true_eq]
  rcases hinv p.1 p.2 hb with h | h | ⟨h, _⟩ | ⟨h, _⟩ |
      ⟨dv, h1, h8, _, hdisp⟩
  · rw [h]; decide
  · rw [h]; decide
  · rw [h]; decide
  · rw [h]; decide
  · rw [hdisp]
    have hv : dv = 1 ∨ dv = 2 ∨ dv = 3 ∨ dv = 4 ∨ dv = 5 ∨ dv = 6 ∨
        dv = 7 ∨ dv = 8 := by omega
    rcases hv with rfl | rfl | rfl | rfl | rfl | rfl | rfl | rfl <;> decide

/-- After the guards pass on a safe cell, the new display is exactly the
flood fill's output (whether or not the game was won). -/
theorem reveal_safe_display {g : Game} {row col : Int}
    (hgo : g.gameOver = false) (hb : g.inBounds row col)
    (hX : g.display row col = "X") (hm : g.grid row col ≠ -1) :
    (reveal g row col).game.display
      = uncoverD g (hiddenN g.rows g.cols g.display + 1)
          g.display row col := by
  rw [reveal_safe_eq hgo hb hX hm]
  by_cases hw : checkWin (revealFlood g row col)
  · rw [if_pos hw]; rfl
  · rw [if_neg hw]; rfl

/-! ## The claims -/

/-- C10: every `reveal` or `flag` call that is rejected — out-of-bounds
coordinates, revealing a Flagged or already-Revealed cell, or flagging a
Revealed cell — returns the invalid status and leaves the entire game
state (display board, grid, flagged count, `game_over`, `won`) exactly as
it was before the call. -/
theorem c10_rejected_calls_leave_state_unchanged (g : Game) (row col : Int)
    (hgo : g.gameOver = false) :
    (¬ g.inBounds row col →
      reveal g row col = ⟨.invalid, g, none, none⟩ ∧
      flag g row col = ⟨.invalid, g⟩) ∧
    (g.inBounds row col → g.display row col = "F" →
      reveal g row col = ⟨.invalid, g, none, none⟩) ∧
    (g.inBounds row col → g.display row col ≠ "X" →
      g.display row col ≠ "F" →
      reveal g row col = ⟨.invalid, g, none, none⟩ ∧
      flag g row col = ⟨.invalid, g⟩) := by
  refine ⟨?_, ?_, ?_⟩
  · intro hb
    exact ⟨reveal_oob_eq hgo hb, flag_oob_eq hgo hb⟩
  · intro hb hF
    exact reveal_flagged_eq hgo hb hF
  · intro hb hnX hnF
    refine ⟨reveal_shown_eq hgo hb hnF hnX, flag_shown_eq hgo hb ?_⟩
    intro hs
    rcases hs with h | h
    · exact hnX h
    · exact hnF h

/-- C10 witness: on the concrete 1×2 game, the out-of-bounds call
`(5, 0)` is rejected by both operations with the state unchanged. -/
theorem c10_witness :
    reveal tinyGame 5 0 = ⟨.invalid, tinyGame, none, none⟩ ∧
    flag tinyGame 5 0 = ⟨.invalid, tinyGame⟩ :=
  (c10_rejected_calls_leave_state_unchanged tinyGame 5 0 rfl).1 (by decide)

/-- C4: revealing an in-bounds Hidden mine cell marks that cell `"*"`,
returns the mine-hit status with returned `won = False`, and makes the
game terminal; from any terminal state, every subsequent `reveal` or
`flag` call returns the game-over error and leaves the state unchanged. -/
theorem c4_mine_hit_then_terminal (g : Game) (row col : Int) :
    (g.gameOver = false → g.inBounds row col → g.display row col = "X" →
      g.grid row col = -1 →
      (reveal g row col).status = .mineHit ∧
      (reveal g row col).game.display row col = "*" ∧
      (reveal g row col).game.gameOver = true ∧
      (reveal g row col).retWon = some false) ∧
    (g.gameOver = true →
      reveal g row col = ⟨.gameOverErr, g, none, none⟩ ∧
      flag g row col = ⟨.gameOverErr, g⟩) := by
  constructor
  · intro hgo hb hX hm
    rw [reveal_mine_eq hgo hb hX hm]
    exact ⟨rfl, upd2_same _ _ _ _, rfl, rfl⟩
  · intro hgo
    exact ⟨reveal_gameOver_eq row col hgo, flag_gameOver_eq row col hgo⟩

/-- C4 witness: on the 1×2 game, revealing the mine at `(0, 1)` explodes
it, and on the finished copy of that game both calls are game-over
errors. -/
theorem c4_witness :
    ((reveal tinyGame 0 1).status = RStatus.mineHit ∧
     (reveal tinyGame 0 1).game.display 0 1 = "*" ∧
     (reveal tinyGame 0 1).game.gameOver = true ∧
     (reveal tinyGame 0 1).retWon = some false) ∧
    (reveal doneGame 0 0 = ⟨.gameOverErr, doneGame, none, none⟩ ∧
     flag doneGame 0 0 = ⟨.gameOverErr, doneGame⟩) :=
  ⟨(c4_mine_hit_then_terminal tinyGame 0 1).1 rfl (by decide) rfl (by decide),
   (c4_mine_hit_then_terminal doneGame 0 0).2 rfl⟩

/-- C8: in a non-terminal game, flagging an in-bounds Hidden cell sets it
Flagged and increments the flagged count, flagging a Flagged cell sets it
back Hidden and decrements the flagged count, and flagging then unflagging
the same Hidden cell is the identity on the game state. -/
theorem c8_flag_toggle_inverse (g : Game) (row col : Int)
    (hgo : g.gameOver = false) (hb : g.inBounds row col) :
    (g.display row col = "X" →
      (flag g row col).status = .flagged ∧
      (flag g row col).game.display row col = "F" ∧
      (flag g row col).game.minesFlagged = g.minesFlagged + 1 ∧
      (flag (flag g row col).game row col).game = g) ∧
    (g.display row col = "F" →
      (flag g row col).status = .flagged ∧
      (flag g row col).game.display row col = "X" ∧
      (flag g row col).game.minesFlagged = g.minesFlagged - 1) := by
  constructor
  · intro hX
    rw [flag_hidden_eq hgo hb hX]
    refine ⟨rfl, upd2_same _ _ _ _, rfl, ?_⟩
    dsimp only
    rw [flag_flagged_eq
      (g := { g with
              display := upd2 g.display row col "F",
              minesFlagged := g.minesFlagged + 1 })
      hgo hb (upd2_same _ _ _ _)]
    obtain ⟨rs, cs, nm, gr, dp, go, wn, mf⟩ := g
    rw [Game.mk.injEq]
    refine ⟨rfl, rfl, rfl, rfl, ?_, rfl, rfl, by dsimp only; omega⟩
    funext x y
    dsimp only
    by_cases hc : x = row ∧ y = col
    · obtain ⟨rfl, rfl⟩ := hc
      rw [upd2_same]
      exact hX.symm
    · rw [upd2_other _ _ _ _ hc, upd2_other _ _ _ _ hc]
  · intro hF
    rw [flag_flagged_eq hgo hb hF]
    exact ⟨rfl, upd2_same _ _ _ _, rfl⟩

/-- C8 witness: on the 1×2 game, flagging the Hidden cell `(0, 0)` flags
it and bumps the count, and flagging it again restores the game exactly. -/
theorem c8_witness :
    (flag tinyGame 0 0).status = FStatus.flagged ∧
    (flag tinyGame 0 0).game.display 0 0 = "F" ∧
    (flag tinyGame 0 0).game.minesFlagged = tinyGame.minesFlagged + 1 ∧
    (flag (flag tinyGame 0 0).game 0 0).game = tinyGame :=
  (c8_flag_toggle_inverse tinyGame 0 0 rfl (by decide)).1 rfl

/-- C1 (code bug): on the spec's own worked example — a 6×6 board with 6
mines, in progress with 15 cells revealed — the claimed baseline-relative
partial reward is `5/24 > 0` (as `reward_demo.py` computes), but the
`evaluate` operation of `server.py` returns `0` for every in-progress
game: the in-progress branch of the claimed formula is not implemented by
the server. -/
theorem c1_evaluate_ignores_partial_reward :
    midGame.gameOver = false ∧ midGame.won = false ∧
    midGame.rows * midGame.cols = 36 ∧ midGame.numMines = 6 ∧
    cellsRevealed midGame = 15 ∧
    expectedRandomCells 36 6 = 30 / 7 ∧
    expectedRandomCells 36 6 < 15 ∧
    calculate_reward 15 36 6 false = 5 / 24 ∧
    evaluateReward midGame = 0 ∧
    calculate_reward 15 36 6 false ≠ evaluateReward midGame := by
  have hcr : calculate_reward 15 36 6 false = 5 / 24 := by
    unfold calculate_reward
    norm_num
  refine ⟨rfl, rfl, by decide, rfl, by decide, ?_, ?_, hcr, rfl, ?_⟩
  · unfold expectedRandomCells
    norm_num
  · unfold expectedRandomCells
    norm_num
  · have h2 : evaluateReward midGame = 0 := rfl
    rw [hcr, h2]
    norm_num

/-- C5 counterexample: `setup_game(3, 3, num_mines=0)` violates the
claimed precondition `0 < numMines`, yet it does not fail — it returns a
ready all-Hidden board. -/
theorem c5_counterexample :
    setupGame 3 3 0 [] = .ok zeroMinesGame ∧
    ¬ (0 < (0 : Int)) ∧
    zeroMinesGame.gameOver = false ∧
    zeroMinesGame.display 1 2 = "X" := by
  exact ⟨rfl, by decide, rfl, rfl⟩

/-- C5 (amended): `setup_game` fails with the configuration error iff
`numMines ≥ rows*cols` — nonpositive `num_mines` (and, vacuously through
that same test, nonpositive `rows`/`cols`) is accepted; every successful
setup echoes the configuration and starts with every cell Hidden and the
game not over. -/
theorem c5_amended_invalid_iff (rows cols numMines : Int)
    (picks : List (Int × Int)) :
    (setupGame rows cols numMines picks = .invalidConfig ↔
      rows * cols ≤ numMines) ∧
    (∀ g, setupGame rows cols numMines picks = .ok g →
      g.rows = rows ∧ g.cols = cols ∧ g.numMines = numMines ∧
      g.gameOver = false ∧ g.won = false ∧ g.minesFlagged = 0 ∧
      ∀ x y, g.display x y = "X") := by
  constructor
  · constructor
    · intro h
      by_contra hc
      unfold setupGame at h
      rw [if_neg (by omega)] at h
      cases hab : assignBombs numMines picks 0 (fun _ _ => 0) with
      | none =>
        rw [hab] at h
        exact SetupOutcome.noConfusion h
      | some grid1 =>
        rw [hab] at h
        exact SetupOutcome.noConfusion h
    · intro h
      unfold setupGame
      rw [if_pos (by omega)]
  · intro g hok
    obtain ⟨h1, h2, h3, hd, h5, h6, h7, _, _⟩ := setupGame_ok_inv hok
    exact ⟨h1, h2, h3, h5, h6, h7, fun x y => by rw [hd]⟩

/-- C5 witness: the 1×2, one-mine setup succeeds and is all Hidden. -/
theorem c5_witness :
    setup12Game.rows = 1 ∧ setup12Game.cols = 2 ∧
    setup12Game.numMines = 1 ∧ setup12Game.gameOver = false ∧
    setup12Game.won = false ∧ setup12Game.minesFlagged = 0 ∧
    ∀ x y, setup12Game.display x y = "X" :=
  (c5_amended_invalid_iff 1 2 1 [(0, 1)]).2 setup12Game rfl

/-- C6: after a successful setup (with the random stream's picks in
bounds, as `random.randint` guarantees), exactly `numMines` board cells
are mines; every in-bounds non-mine cell holds exactly the number of
mines among its up-to-8 in-bounds neighbors, a value in `[0, 8]`; and no
later `reveal`/`flag` sequence ever changes the grid. -/
theorem c6_mines_and_indicators {rows cols numMines : Int}
    {picks : List (Int × Int)} {g : Game}
    (hpicks : ∀ p ∈ picks, inB rows cols p.1 p.2)
    (hok : setupGame rows cols numMines picks = .ok g) :
    (mineCount g : Int) = numMines ∧
    (∀ x y, inB g.rows g.cols x y → g.grid x y ≠ -1 →
      g.grid x y = (adjMines g x y : Int) ∧
      0 ≤ g.grid x y ∧ g.grid x y ≤ 8) ∧
    (∀ ops, (runOps g ops).grid = g.grid) := by
  obtain ⟨hr, hc, hn, _, _, _, _, _, grid1, hab, hgrid⟩ := setupGame_ok_inv hok
  have hiff : ∀ u v, g.grid u v = -1 ↔ grid1 u v = -1 := by
    intro u v
    rw [hgrid]
    exact (calcIndicators_spec rows cols grid1).1 u v
  refine ⟨?_, ?_, ?_⟩
  · have h0 : (((coordList rows cols).countP
        (fun p => decide ((fun _ _ => (0 : Int)) p.1 p.2 = -1))) : Int)
        = 0 := by
      rw [List.countP_eq_zero.mpr]
      · rfl
      · intro p _ h
        rw [decide_eq_true_eq] at h
        exact absurd (show (0 : Int) = -1 from h) (by decide)
    have hcnt := assignBombs_count rows cols numMines picks 0
      (fun _ _ => 0) grid1 hpicks h0 hab
    unfold mineCount
    rw [hr, hc]
    rw [show ((coordList rows cols).countP
        (fun p => decide (g.grid p.1 p.2 = -1)))
        = ((coordList rows cols).countP
            (fun p => decide (grid1 p.1 p.2 = -1))) from
      List.countP_congr (fun p _ => by
        simp only [decide_eq_true_eq]
        exact hiff p.1 p.2)]
    exact hcnt
  · intro x y hb hm
    rw [hr, hc] at hb
    have hspec : calcIndicators rows cols grid1 x y
        = if grid1 x y = -1 then -1 else countAdj rows cols grid1 x y :=
      (calcIndicators_spec rows cols grid1).2 (x, y) (mem_coordList.mpr hb)
    have hm1 : ¬ grid1 x y = -1 := fun h => hm ((hiff x y).mpr h)
    have hval : g.grid x y = countAdj rows cols grid1 x y := by
      rw [hgrid, hspec, if_neg hm1]
    refine ⟨?_, ?_, ?_⟩
    · rw [hval, adjMines_eq_countAdj, hr, hc]
      exact (countAdj_congr rows cols x y
        (fun u v => (hiff u v))).symm
    · rw [hval]
      exact countAdj_nonneg rows cols grid1 x y
    · rw [hval]
      exact countAdj_le_8 rows cols grid1 x y
  · intro ops
    unfold runOps
    refine foldl_inv applyOp (fun h : Game => h.grid = g.grid) ops g rfl ?_
    intro h op _ hP
    cases op with
    | rev row col =>
      rw [show (applyOp h (Op.rev row col)).grid
          = (reveal h row col).game.grid from rfl,
        (reveal_frame h row col).2.2.2.1, hP]
    | flg row col =>
      rw [show (applyOp h (Op.flg row col)).grid
          = (flag h row col).game.grid from rfl,
        (flag_frame h row col).2.2.2.1, hP]

/-- C6 witness: the 1×2 setup with one mine picked at `(0, 1)`. -/
theorem c6_witness :
    (mineCount setup12Game : Int) = 1 ∧
    (∀ x y, inB setup12Game.rows setup12Game.cols x y →
      setup12Game.grid x y ≠ -1 →
      setup12Game.grid x y = (adjMines setup12Game x y : Int) ∧
      0 ≤ setup12Game.grid x y ∧ setup12Game.grid x y ≤ 8) ∧
    (∀ ops, (runOps setup12Game ops).grid = setup12Game.grid) :=
  @c6_mines_and_indicators 1 2 1 [(0, 1)] setup12Game (by decide) rfl

/-- C9: every sequence of `reveal`/`flag` operations after a successful
setup preserves the display/grid consistency invariant: each display cell
is one of `X`, `F`, `*`, `-`, or the digit equal to its grid value in
`1..8`, with `-` only on grid value `0` and `*` only on a mine. -/
theorem c9_display_grid_consistency {rows cols numMines : Int}
    {picks : List (Int × Int)} {g : Game}
    (hok : setupGame rows cols numMines picks = .ok g) (ops : List Op) :
    displayInv (runOps g ops) :=
  (runOps_inv hok ops).2

/-- C9 witness: the invariant after revealing `(0, 0)` on the 1×2 setup. -/
theorem c9_witness : displayInv (runOps setup12Game [Op.rev 0 0]) :=
  @c9_display_grid_consistency 1 2 1 [(0, 1)] setup12Game rfl [Op.rev 0 0]

/-- C3: a `reveal` of an in-bounds Hidden non-mine cell in a consistent,
in-progress game returns the Won status iff, after the reveal mutation,
the number of Revealed cells equals `rows*cols − numMines`; the winning
call sets `won` and `game_over` in that same call, and any other such
reveal returns the in-progress status with the game not over. -/
theorem c3_win_iff_last_safe_cell {g : Game} {row col : Int}
    (hg : gridOK g) (hinv : displayInv g)
    (hgo : g.gameOver = false) (hw0 : g.won = false)
    (hb : g.inBounds row col) (hX : g.display row col = "X")
    (hm : g.grid row col ≠ -1) :
    ((reveal g row col).status = .wonS ↔
      g.rows * g.cols - g.numMines
        = ((revealedCount (reveal g row col).game : Int))) ∧
    ((reveal g row col).status = .wonS →
      (reveal g row col).game.won = true ∧
      (reveal g row col).game.gameOver = true) ∧
    ((reveal g row col).status ≠ .wonS →
      (reveal g row col).status = .revealed ∧
      (reveal g row col).game.won = false ∧
      (reveal g row col).game.gameOver = false) := by
  have hpost : displayInv (reveal g row col).game :=
    displayInv_applyOp hg hinv (Op.rev row col)
  have hcnt : revealedCount (reveal g row col).game
      = uncoveredCount (reveal g row col).game :=
    revealedCount_eq_uncoveredCount hpost
  rw [reveal_safe_eq hgo hb hX hm] at hcnt ⊢
  by_cases hw : checkWin (revealFlood g row col)
  · rw [if_pos hw] at hcnt ⊢
    refine ⟨⟨fun _ => ?_, fun _ => rfl⟩, fun _ => ⟨rfl, rfl⟩,
      fun hne => absurd rfl hne⟩
    rw [hcnt]
    exact hw
  · rw [if_neg hw] at hcnt ⊢
    refine ⟨⟨fun h => RStatus.noConfusion h, fun h => ?_⟩,
      fun h => RStatus.noConfusion h, fun _ => ⟨rfl, hw0, hgo⟩⟩
    exfalso
    refine hw ?_
    rw [hcnt] at h
    exact h

/-- C3 witness: on the 1×2 game, revealing the single safe cell `(0, 0)`
is the last safe cell and wins in that same call. -/
theorem c3_witness :
    ((reveal tinyGame 0 0).status = RStatus.wonS ↔
      tinyGame.rows * tinyGame.cols - tinyGame.numMines
        = ((revealedCount (reveal tinyGame 0 0).game : Int))) ∧
    ((reveal tinyGame 0 0).status = RStatus.wonS →
      (reveal tinyGame 0 0).game.won = true ∧
      (reveal tinyGame 0 0).game.gameOver = true) ∧
    ((reveal tinyGame 0 0).status ≠ RStatus.wonS →
      (reveal tinyGame 0 0).status = RStatus.revealed ∧
      (reveal tinyGame 0 0).game.won = false ∧
      (reveal tinyGame 0 0).game.gameOver = false) := by
  refine c3_win_iff_last_safe_cell ?_ ?_ rfl rfl (by decide) rfl (by decide)
  · intro x y hb
    obtain ⟨h1, h2, h3, h4⟩ := hb
    have h2' : x < (1 : Int) := h2
    have h4' : y < (2 : Int) := h4
    have hx : x = 0 := by omega
    have hy : y = 0 ∨ y = 1 := by omega
    subst hx
    rcases hy with rfl | rfl <;> exact ⟨by decide, by decide⟩
  · intro x y _
    exact Or.inl rfl

/-- C7 counterexample: the index headers are space-padded (`f"{i:2}"`),
not zero-padded: on the 1×2 board the real rendering differs from the
zero-padded layout the claim describes. -/
theorem c7_counterexample :
    boardDisplay tinyGame ≠ claimRender tinyGame ∧
    boardDisplay tinyGame = "    0  1\n 0  X X" ∧
    claimRender tinyGame = "   00 01\n00  X X" := by
  refine ⟨by decide, by decide, by decide⟩

/-- C7 (amended): the rendering is deterministic with the fixed layout —
a header of width-2 right-aligned SPACE-padded column indices, each data
row prefixed by its width-2 space-padded row index, one glyph per cell —
and on a consistent board every glyph is one of `X`, `F`, `*`, `-`,
`1`..`8`. -/
theorem c7_amended_layout (g : Game) (hinv : displayInv g) :
    boardDisplay g
      = String.intercalate "\n"
          (("   " ++ String.intercalate " "
              ((List.range g.cols.toNat).map (fun c => pad2 (c : Int)))) ::
            (List.range g.rows.toNat).map (fun r =>
              pad2 (r : Int) ++ " " ++
                String.join ((List.range g.cols.toNat).map
                  (fun c => " " ++ g.display (r : Int) (c : Int))))) ∧
    (∀ x y, inB g.rows g.cols x y →
      g.display x y ∈ ["X", "F", "*", "-", "1", "2", "3", "4", "5",
        "6", "7", "8"]) := by
  constructor
  · unfold boardDisplay
    refine congrArg (String.intercalate "\n") ?_
    refine congrArg _ ?_
    refine List.map_congr_left ?_
    intro r _
    exact Eq.trans
      (List.foldl_ext
        (fun acc c => acc ++ " " ++ g.display r c)
        (fun acc c => acc ++ (" " ++ g.display r c))
        (pad2 r ++ " ")
        (fun a b _ => String.append_assoc a " " (g.display r b)))
      (foldl_append_eq_join (fun c => " " ++ g.display r c) _ _)
  · intro x y hb
    rcases hinv x y hb with h | h | ⟨h, _⟩ | ⟨h, _⟩ |
        ⟨dv, h1, h8, _, hdisp⟩
    · rw [h]; decide
    · rw [h]; decide
    · rw [h]; decide
    · rw [h]; decide
    · rw [hdisp]
      have hv : dv = 1 ∨ dv = 2 ∨ dv = 3 ∨ dv = 4 ∨ dv = 5 ∨ dv = 6 ∨
          dv = 7 ∨ dv = 8 := by omega
      rcases hv with rfl | rfl | rfl | rfl | rfl | rfl | rfl | rfl <;> decide

/-- C7 witness: the amended layout at the concrete 1×2 board. -/
theorem c7_witness :
    boardDisplay tinyGame
      = String.intercalate "\n"
          (("   " ++ String.intercalate " "
              ((List.range tinyGame.cols.toNat).map
                (fun c => pad2 (c : Int)))) ::
            (List.range tinyGame.rows.toNat).map (fun r =>
              pad2 (r : Int) ++ " " ++
                String.join ((List.range tinyGame.cols.toNat).map
                  (fun c => " " ++ tinyGame.display (r : Int) (c : Int))))) :=
  (c7_amended_layout tinyGame (fun _ _ _ => Or.inl rfl)).1

/-- C2 counterexample: on the 1×7 board whose zero cells
`(0,0)..(0,4)` form one connected zero component with `(0,2)` Flagged,
the cell `(0,3)` belongs to the connected component of zero-count cells
containing `(0,0)` (`ReachZ`) and is not Flagged, yet revealing `(0,0)`
leaves it Hidden: the flag is a cut vertex, so the cascade reveals less
than the full zero component minus the flagged cells. -/
theorem c2_counterexample :
    cutFlagGame.grid 0 0 = 0 ∧ cutFlagGame.display 0 0 = "X" ∧
    cutFlagGame.grid 0 3 = 0 ∧ cutFlagGame.display 0 3 = "X" ∧
    cutFlagGame.display 0 3 ≠ "F" ∧
    ReachZ cutFlagGame (0, 0) (0, 3) ∧
    (reveal cutFlagGame 0 0).status = RStatus.revealed ∧
    (reveal cutFlagGame 0 0).game.display 0 1 = "-" ∧
    (reveal cutFlagGame 0 0).game.display 0 3 = "X" := by
  refine ⟨rfl, rfl, rfl, rfl, by decide, ?_, by decide, by decide,
    by decide⟩
  refine ReachZ.step (p := (0, 2)) ?_ (by decide) (by decide) (by decide)
  refine ReachZ.step (p := (0, 1)) ?_ (by decide) (by decide) (by decide)
  exact ReachZ.step (p := (0, 0)) ReachZ.refl (by decide) (by decide)
    (by decide)

/-- C2 (amended): revealing an in-bounds Hidden zero-count cell marks
Revealed exactly the cells cascade-reachable through HIDDEN zero cells —
the zero component as cut by Flagged (and already-Revealed) cells, not
the full zero component — plus the Hidden numbered border of that
component, Flagged cells staying Flagged; revealing a Hidden cell with a
positive count reveals only that single cell. -/
theorem c2_amended_cascade {g : Game} {row col : Int}
    (hg : gridOK g) (hgo : g.gameOver = false)
    (hb : g.inBounds row col) (hX : g.display row col = "X") :
    (g.grid row col = 0 →
      ∀ x y,
        (ZPart g g.display (row, col) (x, y) ∨
            NumBorder g g.display (row, col) (x, y) →
          (reveal g row col).game.display x y = revealChar (g.grid x y)) ∧
        (¬ (ZPart g g.display (row, col) (x, y) ∨
            NumBorder g g.display (row, col) (x, y)) →
          (reveal g row col).game.display x y = g.display x y) ∧
        (g.display x y = "F" →
          (reveal g row col).game.display x y = "F")) ∧
    (0 < g.grid row col →
      (reveal g row col).game.display row col
        = toString (g.grid row col) ∧
      ∀ x y, ¬ (x = row ∧ y = col) →
        (reveal g row col).game.display x y = g.display x y) := by
  constructor
  · intro h0
    have hm : g.grid row col ≠ -1 := by omega
    have hdisp := reveal_safe_display hgo hb hX hm
    intro x y
    have hchar := uncoverD_characterize g hg
      (le_refl (hiddenN g.rows g.cols g.display + 1)) hb hX x y
    refine ⟨?_, ?_, ?_⟩
    · intro hzn
      rw [hdisp]
      exact hchar.1 ((cascadeHits_iff g h0 (x, y)).mpr hzn)
    · intro hnzn
      rw [hdisp]
      exact hchar.2 (fun hch => hnzn ((cascadeHits_iff g h0 (x, y)).mp hch))
    · intro hF
      rw [hdisp, hchar.2 ?_]
      · exact hF
      · intro hch
        obtain ⟨_, _, hX', _⟩ := hch
        rw [hF] at hX'
        exact absurd hX' (by decide)
  · intro hpos
    have hm : g.grid row col ≠ -1 := by omega
    have hnz : g.grid row col ≠ 0 := by omega
    have hdisp := reveal_safe_display hgo hb hX hm
    constructor
    · rw [hdisp]
      rw [uncoverD_target (hiddenN g.rows g.cols g.display + 1)
        g.display row col (by omega) hb hX (by omega)]
      exact revealChar_pos hpos
    · intro x y hne
      rw [hdisp]
      have hchar := uncoverD_characterize g hg
        (le_refl (hiddenN g.rows g.cols g.display + 1)) hb hX x y
      refine hchar.2 ?_
      intro hch
      obtain ⟨hr, _, _, _⟩ := hch
      have heq := reach_of_nonzero hnz hr
      exact hne ⟨congrArg Prod.fst heq, congrArg Prod.snd heq⟩

/-- C2 witness: on the 1×3 board (grid `0 1 -1`, all Hidden), revealing
`(0, 0)` reveals the numbered border cell `(0, 1)` and leaves the mine
cell `(0, 2)` untouched. -/
theorem c2_witness :
    (reveal zeroStartGame 0 0).game.display 0 1
      = revealChar (zeroStartGame.grid 0 1) ∧
    (reveal zeroStartGame 0 0).game.display 0 2
      = zeroStartGame.display 0 2 := by
  have hg : gridOK zeroStartGame := by
    intro x y hb
    obtain ⟨h1, h2, h3, h4⟩ := hb
    have h2' : x < (1 : Int) := h2
    have h4' : y < (3 : Int) := h4
    have hx : x = 0 := by omega
    have hy : y = 0 ∨ y = 1 ∨ y = 2 := by omega
    subst hx
    rcases hy with rfl | rfl | rfl <;> exact ⟨by decide, by decide⟩
  have h := (@c2_amended_cascade zeroStartGame 0 0 hg rfl (by decide)
    rfl).1 (by decide)
  refine ⟨(h 0 1).1 ?_, (h 0 2).2.1 ?_⟩
  · refine Or.inr ⟨by decide, rfl, by decide, (0, 0),
      ⟨Reach.refl, by decide, rfl, by decide⟩, by decide⟩
  · intro hzn
    rcases hzn with ⟨_, _, _, hz⟩ | ⟨_, _, hpos, _⟩
    · exact absurd hz (by decide)
    · exact absurd hpos (by decide)

end Minesweeper
